import Mathlib

/-!
Verification of the cache-key derivation and cache engines of
`boto3-client-cache` (`src/boto3_client_cache/cache.py`), as a shallow
embedding in Lean 4.

The embedding models:
* Python argument values (`Value`), with the recursive freezing function
  `_AbstractCacheKey._freeze_value`, the `Config` canonicalization
  `_AbstractCacheKey._config_cache_key`, and the key/label construction
  `_AbstractCacheKey._create`;
* the LRU cache engine `_BaseLRUCache` (an insertion-ordered association
  list standing for `collections.OrderedDict`);
* the O(1) LFU frequency index `_FrequencyIndex` (the doubly linked list
  of frequency nodes is represented as a Lean list ordered head to tail)
  and the LFU cache engine `_BaseLFUCache`.
-/

namespace BotoCache

/-- Python values that can appear in a `Session.client` / `Session.resource`
call signature.  `vconfig opts` stands for a `botocore.config.Config`
object whose `_user_provided_options` mapping is `opts` (botocore always
sets that attribute in `Config.__init__`, so the `__dict__` fallback of
`_config_cache_key` is not reachable for real `Config` objects).
Mapping keys are restricted to strings, as in every real signature. -/
inductive Value where
  | vnone : Value
  | vbool : Bool → Value
  | vint : Int → Value
  | vstr : String → Value
  | vtuple : List Value → Value
  | vlist : List Value → Value
  | vdict : List (String × Value) → Value
  | vset : List Value → Value
  | vconfig : List (String × Value) → Value

/-- Constructor tag, used to order values of different Python types.
(Python itself raises `TypeError` when `sorted` compares values of
unrelated types; the embedding totalizes that comparison.) -/
def tagOf : Value → Nat
  | .vnone => 0
  | .vbool _ => 1
  | .vint _ => 2
  | .vstr _ => 3
  | .vtuple _ => 4
  | .vlist _ => 5
  | .vdict _ => 6
  | .vset _ => 7
  | .vconfig _ => 8

/-- Three-way comparison from a linear order. -/
def cmpOf [LinearOrder α] (a b : α) : Ordering :=
  if a < b then .lt else if b < a then .gt else .eq

/-- Lexicographic comparison of lists from an element comparison. -/
def cmpList (cmp : α → α → Ordering) : List α → List α → Ordering
  | [], [] => .eq
  | [], _ :: _ => .lt
  | _ :: _, [] => .gt
  | a :: as, b :: bs =>
    match cmp a b with
    | .eq => cmpList cmp as bs
    | o => o

mutual

/-- Total comparison on `Value`, mirroring how Python `sorted` compares
the values that actually occur in frozen cache keys: numbers numerically,
strings lexicographically, tuples/lists elementwise, and values of
different types by a fixed type tag (where CPython would raise). -/
def valCmp : Value → Value → Ordering
  | .vnone, .vnone => .eq
  | .vbool a, .vbool b => cmpOf a b
  | .vint a, .vint b => cmpOf a b
  | .vstr a, .vstr b => cmpOf a b
  | .vtuple a, .vtuple b => valCmpList a b
  | .vlist a, .vlist b => valCmpList a b
  | .vdict a, .vdict b => valCmpEnt a b
  | .vset a, .vset b => valCmpList a b
  | .vconfig a, .vconfig b => valCmpEnt a b
  | a, b => cmpOf (tagOf a) (tagOf b)

/-- Lexicographic comparison of value lists. -/
def valCmpList : List Value → List Value → Ordering
  | [], [] => .eq
  | [], _ :: _ => .lt
  | _ :: _, [] => .gt
  | a :: as, b :: bs =>
    match valCmp a b with
    | .eq => valCmpList as bs
    | o => o

/-- Lexicographic comparison of `(key, value)` entry lists, comparing the
string keys first, as Python tuple comparison does. -/
def valCmpEnt : List (String × Value) → List (String × Value) → Ordering
  | [], [] => .eq
  | [], _ :: _ => .lt
  | _ :: _, [] => .gt
  | (k1, v1) :: r1, (k2, v2) :: r2 =>
    match cmpOf k1 k2 with
    | .eq =>
      match valCmp v1 v2 with
      | .eq => valCmpEnt r1 r2
      | o => o
    | o => o

end

/-- Comparison of a single `(key, value)` entry, key first. -/
def pairCmp (p q : String × Value) : Ordering :=
  match cmpOf p.1 q.1 with
  | .eq => valCmp p.2 q.2
  | o => o

theorem cmpOf_eq_iff [LinearOrder α] {a b : α} : cmpOf a b = .eq ↔ a = b := by
  unfold cmpOf
  split_ifs with h1 h2
  · exact iff_of_false (by decide) (fun he => absurd (he ▸ h1) (lt_irrefl _))
  · exact iff_of_false (by decide) (fun he => absurd (he ▸ h2) (lt_irrefl _))
  · exact iff_of_true rfl (le_antisymm (not_lt.mp h2) (not_lt.mp h1))

theorem cmpOf_swap [LinearOrder α] (a b : α) : cmpOf b a = (cmpOf a b).swap := by
  rcases lt_trichotomy a b with h | h | h
  · simp [cmpOf, h, lt_asymm h, Ordering.swap]
  · subst h; simp [cmpOf, lt_irrefl, Ordering.swap]
  · simp [cmpOf, h, lt_asymm h, Ordering.swap]

theorem cmpOf_ne_gt [LinearOrder α] {a b : α} : cmpOf a b ≠ .gt ↔ a ≤ b := by
  unfold cmpOf
  split_ifs with h1 h2
  · exact iff_of_true (by decide) (le_of_lt h1)
  · exact iff_of_false (by simp) (not_le.mpr h2)
  · exact iff_of_true (by decide) (not_lt.mp h2)

theorem cmpOf_le_trans [LinearOrder α] {a b c : α}
    (h1 : cmpOf a b ≠ .gt) (h2 : cmpOf b c ≠ .gt) : cmpOf a c ≠ .gt := by
  rw [cmpOf_ne_gt] at h1 h2 ⊢
  exact le_trans h1 h2

theorem cmpList_eq_iff {cmp : α → α → Ordering} :
    ∀ {l1 l2 : List α}, (∀ a ∈ l1, ∀ b ∈ l2, cmp a b = .eq ↔ a = b) →
      (cmpList cmp l1 l2 = .eq ↔ l1 = l2)
  | [], [] => fun _ => by simp [cmpList]
  | [], _ :: _ => fun _ => by simp [cmpList]
  | _ :: _, [] => fun _ => by simp [cmpList]
  | a :: as, b :: bs => fun h => by
    have hhead := h a (List.mem_cons_self a as) b (List.mem_cons_self b bs)
    have htail := @cmpList_eq_iff _ cmp as bs
      (fun x hx y hy => h x (List.mem_cons_of_mem a hx) y (List.mem_cons_of_mem b hy))
    simp only [cmpList]
    cases hab : cmp a b with
    | eq =>
      rw [List.cons_eq_cons]
      exact ⟨fun he => ⟨hhead.mp hab, htail.mp he⟩, fun ⟨_, he⟩ => htail.mpr he⟩
    | lt =>
      refine iff_of_false (by simp) (fun he => ?_)
      rw [List.cons_eq_cons] at he
      exact absurd (hhead.mpr he.1) (by simp [hab])
    | gt =>
      refine iff_of_false (by simp) (fun he => ?_)
      rw [List.cons_eq_cons] at he
      exact absurd (hhead.mpr he.1) (by simp [hab])

theorem cmpList_swap {cmp : α → α → Ordering} :
    ∀ {l1 l2 : List α}, (∀ a ∈ l1, ∀ b ∈ l2, cmp b a = (cmp a b).swap) →
      cmpList cmp l2 l1 = (cmpList cmp l1 l2).swap
  | [], [] => fun _ => by simp [cmpList, Ordering.swap]
  | [], _ :: _ => fun _ => by simp [cmpList, Ordering.swap]
  | _ :: _, [] => fun _ => by simp [cmpList, Ordering.swap]
  | a :: as, b :: bs => fun h => by
    have hhead := h a (List.mem_cons_self a as) b (List.mem_cons_self b bs)
    have htail := @cmpList_swap _ cmp as bs
      (fun x hx y hy => h x (List.mem_cons_of_mem a hx) y (List.mem_cons_of_mem b hy))
    simp only [cmpList, hhead]
    cases cmp a b <;> simp [Ordering.swap, htail]

theorem cmpList_le_trans {cmp : α → α → Ordering}
    (heq : ∀ a b, cmp a b = .eq ↔ a = b)
    (hswap : ∀ a b, cmp b a = (cmp a b).swap) :
    ∀ {l1 l2 l3 : List α},
      (∀ a ∈ l1, ∀ b ∈ l2, ∀ c ∈ l3, cmp a b ≠ .gt → cmp b c ≠ .gt → cmp a c ≠ .gt) →
      cmpList cmp l1 l2 ≠ .gt → cmpList cmp l2 l3 ≠ .gt → cmpList cmp l1 l3 ≠ .gt
  | [], _, l3, _, _, _ => by cases l3 <;> simp [cmpList]
  | _ :: _, [], _, _, h12, _ => by simp [cmpList] at h12
  | _ :: _, _ :: _, [], _, _, h23 => by simp [cmpList] at h23
  | a :: as, b :: bs, c :: cs, h, h12, h23 => by
    have ha : a ∈ a :: as := List.mem_cons_self a as
    have hb : b ∈ b :: bs := List.mem_cons_self b bs
    have hc : c ∈ c :: cs := List.mem_cons_self c cs
    have hheads := h a ha b hb c hc
    have htail := @cmpList_le_trans _ cmp heq hswap as bs cs
      (fun x hx y hy z hz => h x (List.mem_cons_of_mem a hx)
        y (List.mem_cons_of_mem b hy) z (List.mem_cons_of_mem c hz))
    simp only [cmpList] at h12 h23 ⊢
    cases hab : cmp a b with
    | gt => rw [hab] at h12; exact absurd rfl h12
    | eq =>
      -- a = b, so the head comparison with c transfers
      have hab' : a = b := (heq a b).mp hab
      subst hab'
      rw [hab] at h12
      cases hac : cmp a c with
      | eq => rw [hac] at h23; exact htail h12 h23
      | lt => simp
      | gt => rw [hac] at h23; exact absurd rfl h23
    | lt =>
      cases hbc : cmp b c with
      | gt => rw [hbc] at h23; exact absurd rfl h23
      | eq =>
        have hbc' : b = c := (heq b c).mp hbc
        subst hbc'
        simp [hab]
      | lt =>
        have hac := hheads (by simp [hab]) (by simp [hbc])
        cases hac2 : cmp a c with
        | lt => simp
        | gt => exact absurd hac2 hac
        | eq =>
          -- impossible: a = c would make cmp b a = gt contradict cmp b c = lt
          have hac' : a = c := (heq a c).mp hac2
          subst hac'
          have := hswap a b
          rw [hab] at this
          rw [this] at hbc
          simp [Ordering.swap] at hbc

theorem valCmpList_eq : ∀ (l1 l2 : List Value), valCmpList l1 l2 = cmpList valCmp l1 l2
  | [], [] => rfl
  | [], _ :: _ => rfl
  | _ :: _, [] => rfl
  | a :: as, b :: bs => by
    simp only [valCmpList, cmpList]
    cases valCmp a b <;> simp [valCmpList_eq as bs]

theorem valCmpEnt_eq :
    ∀ (l1 l2 : List (String × Value)), valCmpEnt l1 l2 = cmpList pairCmp l1 l2
  | [], [] => rfl
  | [], _ :: _ => rfl
  | _ :: _, [] => rfl
  | (k1, v1) :: r1, (k2, v2) :: r2 => by
    simp only [valCmpEnt, cmpList, pairCmp]
    cases cmpOf k1 k2 <;> cases valCmp v1 v2 <;> simp [valCmpEnt_eq r1 r2]

theorem pairCmp_eq_iff {p q : String × Value}
    (h : valCmp p.2 q.2 = .eq ↔ p.2 = q.2) : pairCmp p q = .eq ↔ p = q := by
  obtain ⟨k1, v1⟩ := p
  obtain ⟨k2, v2⟩ := q
  simp only [pairCmp] at *
  cases hk : cmpOf k1 k2 with
  | eq =>
    have hk' : k1 = k2 := cmpOf_eq_iff.mp hk
    subst hk'
    simp only [Prod.mk.injEq, true_and]
    exact h
  | lt =>
    refine iff_of_false (by simp) (fun he => ?_)
    rw [Prod.mk.injEq] at he
    rw [cmpOf_eq_iff.mpr he.1] at hk
    cases hk
  | gt =>
    refine iff_of_false (by simp) (fun he => ?_)
    rw [Prod.mk.injEq] at he
    rw [cmpOf_eq_iff.mpr he.1] at hk
    cases hk

theorem pairCmp_swap {p q : String × Value}
    (h : valCmp q.2 p.2 = (valCmp p.2 q.2).swap) : pairCmp q p = (pairCmp p q).swap := by
  obtain ⟨k1, v1⟩ := p
  obtain ⟨k2, v2⟩ := q
  simp only [pairCmp, cmpOf_swap k1 k2] at *
  cases cmpOf k1 k2 <;> simp [Ordering.swap, h]

theorem pairCmp_le_trans {p q r : String × Value}
    (htr : valCmp p.2 q.2 ≠ .gt → valCmp q.2 r.2 ≠ .gt → valCmp p.2 r.2 ≠ .gt)
    (h1 : pairCmp p q ≠ .gt) (h2 : pairCmp q r ≠ .gt) : pairCmp p r ≠ .gt := by
  obtain ⟨k1, v1⟩ := p
  obtain ⟨k2, v2⟩ := q
  obtain ⟨k3, v3⟩ := r
  simp only [pairCmp] at htr h1 h2 ⊢
  cases h12 : cmpOf k1 k2 with
  | gt => rw [h12] at h1; exact absurd rfl h1
  | eq =>
    obtain rfl : k1 = k2 := cmpOf_eq_iff.mp h12
    rw [h12] at h1
    cases h23 : cmpOf k1 k3 with
    | lt => exact fun hg => Ordering.noConfusion hg
    | gt => rw [h23] at h2; exact absurd rfl h2
    | eq => rw [h23] at h2; exact htr h1 h2
  | lt =>
    cases h23 : cmpOf k2 k3 with
    | gt => rw [h23] at h2; exact absurd rfl h2
    | eq =>
      obtain rfl : k2 = k3 := cmpOf_eq_iff.mp h23
      rw [h12]
      exact fun hg => Ordering.noConfusion hg
    | lt =>
      have h13 := cmpOf_le_trans (a := k1) (b := k2) (c := k3)
        (by simp [h12]) (by simp [h23])
      cases h13c : cmpOf k1 k3 with
      | lt => exact fun hg => Ordering.noConfusion hg
      | gt => exact absurd h13c h13
      | eq =>
        obtain rfl : k1 = k3 := cmpOf_eq_iff.mp h13c
        have hs := cmpOf_swap k1 k2
        rw [h12] at hs
        rw [h23] at hs
        exact Ordering.noConfusion hs

theorem valCmp_eq_iff (a b : Value) : valCmp a b = .eq ↔ a = b := by
  cases a <;> cases b <;>
    first
      | (simp only [valCmp, Value.vbool.injEq, Value.vint.injEq, Value.vstr.injEq]
         exact cmpOf_eq_iff)
      | (simp only [valCmp, Value.vtuple.injEq, Value.vlist.injEq, Value.vset.injEq,
           valCmpList_eq]
         exact cmpList_eq_iff (fun x hx y hy => valCmp_eq_iff x y))
      | (simp only [valCmp, Value.vdict.injEq, Value.vconfig.injEq, valCmpEnt_eq]
         exact cmpList_eq_iff (fun p hp q hq => pairCmp_eq_iff (valCmp_eq_iff p.2 q.2)))
      | (simp [valCmp]; done)
      | (refine iff_of_false ?_ ?_ <;> (simp [valCmp, tagOf, cmpOf]; done))
termination_by sizeOf a + sizeOf b
decreasing_by
  all_goals
    first
      | (have hx1 := List.sizeOf_lt_of_mem hx
         have hy1 := List.sizeOf_lt_of_mem hy
         simp only [Value.vtuple.sizeOf_spec, Value.vlist.sizeOf_spec,
           Value.vset.sizeOf_spec]
         omega)
      | (have hp1 := List.sizeOf_lt_of_mem hp
         have hq1 := List.sizeOf_lt_of_mem hq
         obtain ⟨p1, p2⟩ := p
         obtain ⟨q1, q2⟩ := q
         simp only [Value.vdict.sizeOf_spec, Value.vconfig.sizeOf_spec,
           Prod.mk.sizeOf_spec] at hp1 hq1 ⊢
         omega)

theorem valCmp_swap (a b : Value) : valCmp b a = (valCmp a b).swap := by
  cases a <;> cases b <;>
    first
      | (simp only [valCmp]; exact cmpOf_swap _ _)
      | (simp [valCmp, Ordering.swap]; done)
      | (simp only [valCmp, valCmpList_eq]
         exact cmpList_swap (fun x hx y hy => valCmp_swap x y))
      | (simp only [valCmp, valCmpEnt_eq]
         exact cmpList_swap (fun p hp q hq => pairCmp_swap (valCmp_swap p.2 q.2)))
termination_by sizeOf a + sizeOf b
decreasing_by
  all_goals
    first
      | (have hx1 := List.sizeOf_lt_of_mem hx
         have hy1 := List.sizeOf_lt_of_mem hy
         simp only [Value.vtuple.sizeOf_spec, Value.vlist.sizeOf_spec,
           Value.vset.sizeOf_spec]
         omega)
      | (have hp1 := List.sizeOf_lt_of_mem hp
         have hq1 := List.sizeOf_lt_of_mem hq
         obtain ⟨p1, p2⟩ := p
         obtain ⟨q1, q2⟩ := q
         simp only [Value.vdict.sizeOf_spec, Value.vconfig.sizeOf_spec,
           Prod.mk.sizeOf_spec] at hp1 hq1 ⊢
         omega)

theorem pairCmpG_eq (p q : String × Value) : pairCmp p q = .eq ↔ p = q :=
  pairCmp_eq_iff (valCmp_eq_iff p.2 q.2)

theorem pairCmpG_swap (p q : String × Value) : pairCmp q p = (pairCmp p q).swap :=
  pairCmp_swap (valCmp_swap p.2 q.2)

theorem sizeOf_value_pos (a : Value) : 1 ≤ sizeOf a := by
  cases a <;> simp_arith

theorem snd_sizeOf_lt (p : String × Value) : sizeOf p.2 < sizeOf p := by
  obtain ⟨x, y⟩ := p
  simp [Prod.mk.sizeOf_spec]

theorem valCmp_le_trans_aux :
    ∀ (n : Nat) (a b c : Value), sizeOf a + sizeOf b + sizeOf c ≤ n →
      valCmp a b ≠ .gt → valCmp b c ≠ .gt → valCmp a c ≠ .gt := by
  intro n
  induction n with
  | zero =>
    intro a b c hle
    have ha := sizeOf_value_pos a
    have hb := sizeOf_value_pos b
    have hc := sizeOf_value_pos c
    omega
  | succ n ih =>
    intro a b c hle h1 h2
    cases a <;> cases b <;> cases c <;>
      simp only [valCmp, tagOf] at h1 h2 ⊢ <;>
      first
        | exact cmpOf_le_trans h1 h2
        | exact h1
        | exact h2
        | decide
        | (simp only [valCmpList_eq] at h1 h2 ⊢
           exact cmpList_le_trans valCmp_eq_iff valCmp_swap
             (fun x hx y hy z hz hxy hyz => ih x y z
               (by
                 have hx1 := List.sizeOf_lt_of_mem hx
                 have hy1 := List.sizeOf_lt_of_mem hy
                 have hz1 := List.sizeOf_lt_of_mem hz
                 simp only [Value.vtuple.sizeOf_spec, Value.vlist.sizeOf_spec,
                   Value.vset.sizeOf_spec] at hle
                 omega)
               hxy hyz) h1 h2)
        | (simp only [valCmpEnt_eq] at h1 h2 ⊢
           exact cmpList_le_trans pairCmpG_eq pairCmpG_swap
             (fun p hp q hq r hr hpq hqr => pairCmp_le_trans
               (fun u v => ih p.2 q.2 r.2
                 (by
                   have hp1 := List.sizeOf_lt_of_mem hp
                   have hq1 := List.sizeOf_lt_of_mem hq
                   have hr1 := List.sizeOf_lt_of_mem hr
                   have hp2 := snd_sizeOf_lt p
                   have hq2 := snd_sizeOf_lt q
                   have hr2 := snd_sizeOf_lt r
                   simp only [Value.vdict.sizeOf_spec,
                     Value.vconfig.sizeOf_spec] at hle
                   omega)
                 u v) hpq hqr) h1 h2)
        | (simp [cmpOf] at h1 h2 ⊢
           done)

theorem valCmp_le_trans (a b c : Value)
    (h1 : valCmp a b ≠ .gt) (h2 : valCmp b c ≠ .gt) : valCmp a c ≠ .gt :=
  valCmp_le_trans_aux (sizeOf a + sizeOf b + sizeOf c) a b c le_rfl h1 h2

instance : DecidableEq Value := fun a b =>
  decidable_of_iff (valCmp a b = .eq) (valCmp_eq_iff a b)

/-- The order in which Python `sorted` arranges values (totalized). -/
def valLe (a b : Value) : Prop := valCmp a b ≠ .gt

/-- The order in which Python `sorted` arranges `(key, value)` 2-tuples. -/
def pairLe (p q : String × Value) : Prop := pairCmp p q ≠ .gt

instance : DecidableRel valLe := fun a b =>
  inferInstanceAs (Decidable (valCmp a b ≠ .gt))

instance : DecidableRel pairLe := fun p q =>
  inferInstanceAs (Decidable (pairCmp p q ≠ .gt))

instance : IsTotal Value valLe where
  total a b := by
    unfold valLe
    cases h : valCmp a b with
    | lt => exact Or.inl (by simp [h])
    | eq => exact Or.inl (by simp [h])
    | gt =>
      refine Or.inr ?_
      rw [valCmp_swap a b, h]
      simp [Ordering.swap]

instance : IsTrans Value valLe where
  trans a b c := valCmp_le_trans a b c

instance : IsAntisymm Value valLe where
  antisymm a b h1 h2 := by
    unfold valLe at h1 h2
    cases h : valCmp a b with
    | eq => exact (valCmp_eq_iff a b).mp h
    | gt => exact absurd h (by simpa using h1)
    | lt =>
      rw [valCmp_swap a b, h] at h2
      simp [Ordering.swap] at h2

instance : IsTotal (String × Value) pairLe where
  total p q := by
    unfold pairLe
    cases h : pairCmp p q with
    | lt => exact Or.inl (by simp [h])
    | eq => exact Or.inl (by simp [h])
    | gt =>
      refine Or.inr ?_
      rw [pairCmpG_swap p q, h]
      simp [Ordering.swap]

instance : IsTrans (String × Value) pairLe where
  trans p q r := pairCmp_le_trans
    (fun u v => valCmp_le_trans p.2 q.2 r.2 u v)

instance : IsAntisymm (String × Value) pairLe where
  antisymm p q h1 h2 := by
    unfold pairLe at h1 h2
    cases h : pairCmp p q with
    | eq => exact (pairCmpG_eq p q).mp h
    | gt => exact absurd h (by simpa using h1)
    | lt =>
      rw [pairCmpG_swap p q, h] at h2
      simp [Ordering.swap] at h2

/-- Python `sorted` on a list of values. -/
def sortVals (l : List Value) : List Value := List.insertionSort valLe l

/-- Python `sorted` on a list of `(key, value)` items (2-tuple comparison,
key first; the value components are only reached on a key tie, which does
not happen for the unique keys of a `dict`). -/
def sortEntries (l : List (String × Value)) : List (String × Value) :=
  List.insertionSort pairLe l

theorem sortVals_perm_eq {l1 l2 : List Value} (h : l1.Perm l2) :
    sortVals l1 = sortVals l2 :=
  List.eq_of_perm_of_sorted
    ((List.perm_insertionSort valLe l1).trans
      (h.trans (List.perm_insertionSort valLe l2).symm))
    (List.sorted_insertionSort valLe l1) (List.sorted_insertionSort valLe l2)

theorem sortEntries_perm_eq {l1 l2 : List (String × Value)} (h : l1.Perm l2) :
    sortEntries l1 = sortEntries l2 :=
  List.eq_of_perm_of_sorted
    ((List.perm_insertionSort pairLe l1).trans
      (h.trans (List.perm_insertionSort pairLe l2).symm))
    (List.sorted_insertionSort pairLe l1) (List.sorted_insertionSort pairLe l2)

/-- `_AbstractCacheKey._freeze_value`: recursively freezes a value —
mappings become sorted tuples of `(key, frozen value)` 2-tuples, sequences
become tuples of frozen elements in order, sets become sorted tuples of
frozen elements, and everything else (scalars, `Config` objects) passes
through unchanged. -/
def freezeValue : Value → Value
  | .vdict entries =>
    .vtuple ((sortEntries (entries.attach.map
      (fun e => (e.1.1, freezeValue e.1.2)))).map
        (fun e => Value.vtuple [.vstr e.1, e.2]))
  | .vlist items => .vtuple (items.attach.map (fun x => freezeValue x.1))
  | .vtuple items => .vtuple (items.attach.map (fun x => freezeValue x.1))
  | .vset items => .vtuple (sortVals (items.attach.map (fun x => freezeValue x.1)))
  | v => v
decreasing_by
  all_goals
    simp only [Value.vtuple.sizeOf_spec, Value.vlist.sizeOf_spec,
      Value.vset.sizeOf_spec, Value.vdict.sizeOf_spec, Value.vconfig.sizeOf_spec,
      List.cons.sizeOf_spec, List.nil.sizeOf_spec]
  all_goals
    first
      | (have h := List.sizeOf_lt_of_mem x.2
         omega)
      | (have h := List.sizeOf_lt_of_mem e.2
         have h2 := snd_sizeOf_lt e.1
         omega)
      | omega

/-- Normal form realizing Python `==` on signature values: `True`/`False`
are identified with `1`/`0`, mapping entries are arranged in a canonical
order (Python compares mappings by key lookup, which ignores insertion
order), set elements likewise (Python compares sets extensionally), and
lists/tuples stay ordered.  Two values are Python-equal exactly when their
normal forms agree structurally. -/
def pynorm : Value → Value
  | .vnone => .vnone
  | .vbool b => .vint (if b then 1 else 0)
  | .vint n => .vint n
  | .vstr s => .vstr s
  | .vtuple xs => .vtuple (xs.attach.map (fun x => pynorm x.1))
  | .vlist xs => .vlist (xs.attach.map (fun x => pynorm x.1))
  | .vdict es => .vdict (sortEntries (es.attach.map (fun e => (e.1.1, pynorm e.1.2))))
  | .vset xs => .vset (sortVals (xs.attach.map (fun x => pynorm x.1)))
  | .vconfig es => .vconfig (sortEntries (es.attach.map (fun e => (e.1.1, pynorm e.1.2))))
decreasing_by
  all_goals
    simp only [Value.vtuple.sizeOf_spec, Value.vlist.sizeOf_spec,
      Value.vset.sizeOf_spec, Value.vdict.sizeOf_spec, Value.vconfig.sizeOf_spec,
      List.cons.sizeOf_spec, List.nil.sizeOf_spec]
  all_goals
    first
      | (have h := List.sizeOf_lt_of_mem x.2
         omega)
      | (have h := List.sizeOf_lt_of_mem e.2
         have h2 := snd_sizeOf_lt e.1
         omega)
      | omega

/-- Python equality on signature values. -/
def pyEq (a b : Value) : Prop := pynorm a = pynorm b

instance (a b : Value) : Decidable (pyEq a b) :=
  inferInstanceAs (Decidable (pynorm a = pynorm b))

/-- Whether `hash(v)` succeeds in Python: mappings, lists and sets are
unhashable (`hash` raises `TypeError`); tuples are hashable when their
elements are; scalars and `Config` objects (object identity) are hashable. -/
def hashableV : Value → Bool
  | .vnone => true
  | .vbool _ => true
  | .vint _ => true
  | .vstr _ => true
  | .vtuple xs => xs.attach.all (fun x => hashableV x.1)
  | .vlist _ => false
  | .vdict _ => false
  | .vset _ => false
  | .vconfig _ => true
decreasing_by
  all_goals
    simp only [Value.vtuple.sizeOf_spec, Value.vlist.sizeOf_spec,
      Value.vset.sizeOf_spec, Value.vdict.sizeOf_spec, Value.vconfig.sizeOf_spec,
      List.cons.sizeOf_spec, List.nil.sizeOf_spec]
  all_goals
    first
      | (have h := List.sizeOf_lt_of_mem x.2
         omega)
      | (have h := List.sizeOf_lt_of_mem e.2
         have h2 := snd_sizeOf_lt e.1
         omega)
      | omega

/-- A concrete numeric digest of a value, standing in for the numeric part
of CPython's hash (collisions are fine, as for any hash). -/
def hashNat : Value → Nat
  | .vnone => 0
  | .vbool b => if b then 2 else 1
  | .vint n => 3 + 2 * n.natAbs + (if n < 0 then 1 else 0)
  | .vstr s => 5 + s.length
  | .vtuple xs => 7 + (xs.attach.map (fun x => hashNat x.1)).foldr (fun a b => a + 3 * b) 0
  | .vlist xs => 11 + (xs.attach.map (fun x => hashNat x.1)).foldr (fun a b => a + 3 * b) 0
  | .vdict es =>
    13 + (es.attach.map (fun e => e.1.1.length + hashNat e.1.2)).foldr (fun a b => a + 3 * b) 0
  | .vset xs => 17 + (xs.attach.map (fun x => hashNat x.1)).foldr (fun a b => a + 3 * b) 0
  | .vconfig es =>
    19 + (es.attach.map (fun e => e.1.1.length + hashNat e.1.2)).foldr (fun a b => a + 3 * b) 0
decreasing_by
  all_goals
    simp only [Value.vtuple.sizeOf_spec, Value.vlist.sizeOf_spec,
      Value.vset.sizeOf_spec, Value.vdict.sizeOf_spec, Value.vconfig.sizeOf_spec,
      List.cons.sizeOf_spec, List.nil.sizeOf_spec]
  all_goals
    first
      | (have h := List.sizeOf_lt_of_mem x.2
         omega)
      | (have h := List.sizeOf_lt_of_mem e.2
         have h2 := snd_sizeOf_lt e.1
         omega)
      | omega

/-- Python `hash`: `none` models the `TypeError` raised on an unhashable
value; on hashable values it stands in for CPython's opaque hash as some
fixed function of the value's `==`-equivalence class (so that equal values
have equal hashes). -/
def pyHash (v : Value) : Option Nat :=
  if hashableV v then some (hashNat (pynorm v)) else none

/-- Python `", ".join`. -/
def joinStrs (sep : String) : List String → String
  | [] => ""
  | [s] => s
  | s :: rest => s ++ sep ++ joinStrs sep rest

/-- Python `repr` of a signature value (string escaping inside `repr` of a
string is simplified to plain quoting; a positional `Config` object has an
address-based `repr` in Python, modelled as a fixed token). -/
def pyRepr : Value → String
  | .vnone => "None"
  | .vbool b => if b then "True" else "False"
  | .vint n => toString n
  | .vstr s => "\x27" ++ s ++ "\x27"
  | .vtuple [x] => "(" ++ pyRepr x ++ ",)"
  | .vtuple xs => "(" ++ joinStrs ", " (xs.attach.map (fun x => pyRepr x.1)) ++ ")"
  | .vlist xs => "[" ++ joinStrs ", " (xs.attach.map (fun x => pyRepr x.1)) ++ "]"
  | .vdict es =>
    "\x7b" ++ joinStrs ", " (es.attach.map
      (fun e => "\x27" ++ e.1.1 ++ "\x27: " ++ pyRepr e.1.2)) ++ "\x7d"
  | .vset [] => "set()"
  | .vset xs => "\x7b" ++ joinStrs ", " (xs.attach.map (fun x => pyRepr x.1)) ++ "\x7d"
  | .vconfig _ => "<botocore.config.Config object>"
decreasing_by
  all_goals
    simp only [Value.vtuple.sizeOf_spec, Value.vlist.sizeOf_spec,
      Value.vset.sizeOf_spec, Value.vdict.sizeOf_spec, Value.vconfig.sizeOf_spec,
      List.cons.sizeOf_spec, List.nil.sizeOf_spec]
  all_goals
    first
      | (have h := List.sizeOf_lt_of_mem x.2
         omega)
      | (have h := List.sizeOf_lt_of_mem e.2
         have h2 := snd_sizeOf_lt e.1
         omega)
      | omega

/-- Whether a value is a `botocore.config.Config` instance. -/
def isConfig : Value → Bool
  | .vconfig _ => true
  | _ => false

/-- `_AbstractCacheKey._config_cache_key`: `None` passes through; a
`Config` is keyed by freezing its `_user_provided_options` mapping (always
present on a real `Config`); any other value has no
`_user_provided_options`, so the code falls back to freezing its
`__dict__`, which is empty for the plain values modelled here. -/
def configCacheKey : Value → Value
  | .vnone => .vnone
  | .vconfig opts => freezeValue (.vdict opts)
  | _ => freezeValue (.vdict [])

/-- `_AbstractCacheKey._format_label_value`: a `Config` is rendered from
its sorted `_user_provided_options`; everything else is rendered by
`repr`. -/
def formatLabelValue (v : Value) : String :=
  match v with
  | .vconfig opts =>
    "Config(" ++ joinStrs ", "
      ((sortEntries opts).map (fun e => e.1 ++ "=" ++ pyRepr e.2)) ++ ")"
  | v => pyRepr v

/-- The `cache_type` tag, i.e. whether the key belongs to `ClientCacheKey`
or `ResourceCacheKey`. -/
inductive CacheType where
  | client : CacheType
  | resource : CacheType
deriving DecidableEq

/-- The parameter names that may carry credentials
(`_create`'s `sensitive_keys`). -/
def sensitiveKeys : List String :=
  ["aws_access_key_id", "aws_secret_access_key", "aws_session_token"]

/-- The parameter names of `boto3.Session.client` and `boto3.Session.resource`
with `self` removed; the two methods take the same parameters, so the
`inspect.signature` computation in `_create` yields this list for both
cache types.  (The list comes from the external boto3 library.) -/
def parameterNames : List String :=
  ["service_name", "region_name", "api_version", "use_ssl", "verify",
   "endpoint_url", "aws_access_key_id", "aws_secret_access_key",
   "aws_session_token", "config"]

/-- `_create`'s `sensitive_arg_positions`: the positions of the sensitive
parameters in the positional signature. -/
def sensitiveArgPositions : List Nat :=
  (parameterNames.enum.filter (fun p => sensitiveKeys.contains p.2)).map (·.1)

/-- Python `kwargs["name"]` lookup (`None`-free association list standing
for the keyword-argument `dict`; keys are unique). -/
def getKw (kw : List (String × Value)) (name : String) : Option Value :=
  (kw.find? (fun e => e.1 == name)).map (·.2)

/-- Python `kwargs.pop("name")`'s effect on the dict. -/
def eraseKw (kw : List (String × Value)) (name : String) : List (String × Value) :=
  kw.eraseP (fun e => e.1 == name)

/-- Python `kwargs["name"] = v` for a key already present (the entry keeps
its position, as `dict` assignment does). -/
def setKw (kw : List (String × Value)) (name : String) (v : Value) :
    List (String × Value) :=
  kw.map (fun e => if e.1 == name then (e.1, v) else e)

/-- The `while _args and _args[-1] is None: _args.pop()` loop of `_create`:
drops trailing `None` values, preserving interior ones. -/
def popTrailingNones (l : List Value) : List Value :=
  (l.reverse.dropWhile (fun v => v == Value.vnone)).reverse

/-- A Python `(key, value)` 2-tuple as it appears inside the key. -/
def entryTuple (e : String × Value) : Value := .vtuple [.vstr e.1, e.2]

/-- The result of `_AbstractCacheKey._create` (together with the
`cache_type` chosen by the constructor): the public redacted key `key`,
the private clear key `_key` (used by `__eq__`/`__hash__`), the public
redacted `label` (returned by `__str__` and embedded in `__repr__`), and
the private clear `_label`. -/
structure CacheKeyData where
  cacheType : CacheType
  key : Value
  clearKey : Value
  label : String
  clearLabel : String
deriving DecidableEq

/-- `_AbstractCacheKey._create` for a signature of positional arguments
`args0` and keyword arguments `kwargs0` (in insertion order, unique keys):
folds a `service_name` keyword to the front of the positionals, strips the
cache-control parameters `eviction_policy` and `max_size`, renders the
labels (sensitive positions/names redacted in the public one), replaces
`Config` arguments by `_config_cache_key`, redacts sensitive positional and
keyword values in the public key only, strips trailing `None` positionals
and all `None`-valued keywords, and sorts keyword items. -/
def create (ct : CacheType) (args0 : List Value)
    (kwargs0 : List (String × Value)) : CacheKeyData :=
  let serv := getKw kwargs0 "service_name"
  let args1 := match serv with | some v => v :: args0 | none => args0
  let kwargs1 := match serv with
    | some _ => eraseKw kwargs0 "service_name"
    | none => kwargs0
  let kwargs := eraseKw (eraseKw kwargs1 "eviction_policy") "max_size"
  let sortedKw := sortEntries kwargs
  let clearLabel := joinStrs ", "
      (args1.map pyRepr ++ sortedKw.map (fun e => e.1 ++ "=" ++ formatLabelValue e.2))
  let label := joinStrs ", "
      ((args1.enum.map (fun p =>
          if sensitiveArgPositions.contains p.1 then pyRepr (.vstr "***")
          else pyRepr p.2))
        ++ sortedKw.map (fun e =>
          if sensitiveKeys.contains e.1 then e.1 ++ "=***"
          else e.1 ++ "=" ++ formatLabelValue e.2))
  let redArgs := popTrailingNones (args1.enum.map (fun p =>
      if isConfig p.2 then configCacheKey p.2
      else if sensitiveArgPositions.contains p.1 then .vstr "***"
      else p.2))
  let clearArgs := popTrailingNones (args1.map (fun a =>
      if isConfig a then configCacheKey a else a))
  let kwargsC := match getKw kwargs "config" with
    | some v => if v = Value.vnone then kwargs else setKw kwargs "config" (configCacheKey v)
    | none => kwargs
  let redKwargs := (kwargsC.filter (fun e => !(e.2 == Value.vnone))).map
      (fun e => if sensitiveKeys.contains e.1 then (e.1, Value.vstr "***") else e)
  let clearKwargs := kwargsC.filter (fun e => !(e.2 == Value.vnone))
  { cacheType := ct
    key := .vtuple [.vtuple redArgs, .vtuple ((sortEntries redKwargs).map entryTuple)]
    clearKey := .vtuple [.vtuple clearArgs,
      .vtuple ((sortEntries clearKwargs).map entryTuple)]
    label := label
    clearLabel := clearLabel }

/-- `ClientCacheKey.__eq__` / `ResourceCacheKey.__eq__`: an `isinstance`
check (same key class, i.e. same `cache_type`) plus Python equality of the
private `_key`.  Redaction data (`key`, `label`) is not consulted. -/
def keyEq (a b : CacheKeyData) : Bool :=
  a.cacheType == b.cacheType && pynorm a.clearKey == pynorm b.clearKey

/-- `_AbstractCacheKey.__hash__`: `hash(self._key)`.  Redaction data is
not consulted; hashing an unhashable `_key` raises (`none`). -/
def keyHash (k : CacheKeyData) : Option Nat := pyHash k.clearKey

end BotoCache

namespace BotoCache

/-- The error kinds the cache operations raise
(`exceptions.py` / `CacheError`): `notFound` for the
`...CacheNotFoundError`s, `dup` for the `...CacheExistsError`s,
`emptyIdx` for the `CacheError` raised by
`_FrequencyIndex.pop_least_frequent` on an empty index, and `keyErr` for
a raw Python `KeyError` (only reachable if the backing dict and the
frequency index ever went out of sync). -/
inductive Err where
  | notFound : Err
  | dup : Err
  | emptyIdx : Err
  | keyErr : Err
deriving DecidableEq

section Caches

variable {K V : Type} [DecidableEq K]

/-- Python `dict.get(k)` on an association list in insertion order. -/
def lookupKV (l : List (K × V)) (k : K) : Option V :=
  (l.find? (fun e => e.1 == k)).map (·.2)

/-- Python `del d[k]` for a present key (keys are unique). -/
def eraseKV (l : List (K × V)) (k : K) : List (K × V) :=
  l.eraseP (fun e => e.1 == k)

/-- `_BaseLRUCache`: `_max_size` plus the backing `OrderedDict`, kept as a
list in insertion/recency order — the head is the least recently used
entry, the last element the most recently used. -/
structure LRUCache (K V : Type) where
  maxSize : Nat
  cache : List (K × V)

/-- `OrderedDict.move_to_end(k)` for a present key. -/
def moveToEnd (l : List (K × V)) (k : K) : List (K × V) :=
  match lookupKV l k with
  | some v => eraseKV l k ++ [(k, v)]
  | none => l

/-- `_BaseLRUCache.__getitem__`: on a hit, mark the key most recently used
and return the object; on a miss raise the not-found error. -/
def lruGetItem (s : LRUCache K V) (k : K) : Except Err (V × LRUCache K V) :=
  match lookupKV s.cache k with
  | some v => .ok (v, { s with cache := moveToEnd s.cache k })
  | none => .error .notFound

/-- `_BaseLRUCache.__setitem__` (the key/value `isinstance` validation is
enforced by the types of the embedding): duplicate keys raise before any
mutation; otherwise the entry is appended at the most-recently-used end
(`_cache[key] = obj` on a fresh key, then `move_to_end`), and if occupancy
now exceeds `max_size` a single `popitem(last=False)` evicts the least
recently used entry. -/
def lruSetItem (s : LRUCache K V) (k : K) (v : V) : Except Err (LRUCache K V) :=
  if (lookupKV s.cache k).isSome then .error .dup
  else
    let c1 := s.cache ++ [(k, v)]
    .ok { s with cache := if c1.length > s.maxSize then c1.drop 1 else c1 }

/-- `_BaseLRUCache.__delitem__`. -/
def lruDelItem (s : LRUCache K V) (k : K) : Except Err (LRUCache K V) :=
  if (lookupKV s.cache k).isSome then .ok { s with cache := eraseKV s.cache k }
  else .error .notFound

/-- `_BaseLRUCache.get(key, default)`: a hit marks the key most recently
used and returns the stored object; a miss returns the default with no
mutation. -/
def lruGetD (s : LRUCache K V) (k : K) (d : Option V) :
    Option V × LRUCache K V :=
  match lookupKV s.cache k with
  | some v => (some v, { s with cache := moveToEnd s.cache k })
  | none => (d, s)

/-- `_BaseLRUCache.pop` (a stored object is never `None`, so the
`is None` test in the source is equivalent to a presence test). -/
def lruPop (s : LRUCache K V) (k : K) : Except Err (V × LRUCache K V) :=
  match lookupKV s.cache k with
  | some v => .ok (v, { s with cache := eraseKV s.cache k })
  | none => .error .notFound

/-- `_BaseLRUCache.clear`. -/
def lruClear (s : LRUCache K V) : LRUCache K V := { s with cache := [] }

/-- `_BaseLRUCache.popitem`: `popitem(last=False)` — remove and return the
least recently used entry; raises not-found on an empty cache. -/
def lruPopitem (s : LRUCache K V) : Except Err ((K × V) × LRUCache K V) :=
  match s.cache with
  | [] => .error .notFound
  | e :: rest => .ok (e, { s with cache := rest })

/-- `_BaseLRUCache.__contains__` (reads only; the state is returned
unchanged). -/
def lruContains (s : LRUCache K V) (k : K) : Bool × LRUCache K V :=
  ((lookupKV s.cache k).isSome, s)

/-- The `while len(self._cache) > self._max_size: self._cache.popitem(last=False)`
loop of the `max_size` setter. -/
def dropToFit (m : Nat) : List (K × V) → List (K × V)
  | [] => []
  | e :: rest => if (e :: rest).length > m then dropToFit m rest else e :: rest

/-- The `max_size` setter of `_BaseLRUCache`: stores `abs(value)` and
evicts least recently used entries until occupancy fits. -/
def lruSetMax (s : LRUCache K V) (value : Int) : LRUCache K V :=
  { maxSize := value.natAbs, cache := dropToFit value.natAbs s.cache }

/-- A `_FrequencyNode`: an access count together with the keys currently
at that count, in `OrderedDict` insertion order (head = least recently
touched at this frequency). -/
structure FreqNode (K : Type) where
  freq : Nat
  keys : List K
deriving DecidableEq

/-- The `_FrequencyIndex` doubly linked list, as the list of its nodes
from `_head` to `_tail` (increasing frequency).  The `_key_to_node` map is
recovered by searching the nodes. -/
abbrev FreqIdx (K : Type) := List (FreqNode K)

/-- All keys of the index in `iter_keys` order: increasing frequency,
and least-recently-touched first inside a node. -/
def iterKeys (idx : FreqIdx K) : List K := (idx.map FreqNode.keys).flatten

/-- `_FrequencyIndex.insert`: append the key to the frequency-1 head node,
creating it in front if the head's frequency is not 1 (or there is no
head). -/
def idxInsert (idx : FreqIdx K) (k : K) : FreqIdx K :=
  match idx with
  | n :: rest =>
    if n.freq = 1 then { n with keys := n.keys ++ [k] } :: rest
    else ⟨1, [k]⟩ :: n :: rest
  | [] => [⟨1, [k]⟩]

/-- `_FrequencyIndex.increment`: move the key from its node to the node of
the next higher frequency (which is created right after the current node
unless the immediate successor already has that frequency), appending at
the most-recently-touched end; the old node is pruned if it became empty.
`none` models the `KeyError` raised when the key is not in
`_key_to_node`. -/
def idxIncrement : FreqIdx K → K → Option (FreqIdx K)
  | [], _ => none
  | n :: rest, k =>
    if n.keys.contains k then
      let remaining := n.keys.eraseP (· == k)
      some (match rest with
        | m :: rest2 =>
          if m.freq = n.freq + 1 then
            if remaining.isEmpty then { m with keys := m.keys ++ [k] } :: rest2
            else { n with keys := remaining } ::
              { m with keys := m.keys ++ [k] } :: rest2
          else
            if remaining.isEmpty then
              (⟨n.freq + 1, [k]⟩ : FreqNode K) :: m :: rest2
            else { n with keys := remaining } ::
              (⟨n.freq + 1, [k]⟩ : FreqNode K) :: m :: rest2
        | [] =>
          if remaining.isEmpty then [⟨n.freq + 1, [k]⟩]
          else [{ n with keys := remaining }, ⟨n.freq + 1, [k]⟩])
    else (idxIncrement rest k).map (n :: ·)

/-- `_FrequencyIndex.delete`: remove the key from its node, pruning the
node if it became empty; `none` models the `KeyError` on an absent key. -/
def idxDelete : FreqIdx K → K → Option (FreqIdx K)
  | [], _ => none
  | n :: rest, k =>
    if n.keys.contains k then
      let remaining := n.keys.eraseP (· == k)
      some (if remaining.isEmpty then rest else { n with keys := remaining } :: rest)
    else (idxDelete rest k).map (n :: ·)

/-- `_FrequencyIndex.pop_least_frequent`: take the least recently touched
key of the head (lowest-frequency) node, pruning the node if it became
empty.  `none` models the `CacheError` on an empty index (and the
impossible `popitem` on an empty head node). -/
def idxPop : FreqIdx K → Option (K × FreqIdx K)
  | [] => none
  | n :: rest =>
    match n.keys with
    | [] => none
    | k :: ks => some (k, if ks.isEmpty then rest else { n with keys := ks } :: rest)

/-- `_BaseLFUCache`: `_max_size`, the backing dict, and the frequency
index. -/
structure LFUCache (K V : Type) where
  maxSize : Nat
  cache : List (K × V)
  idx : FreqIdx K

/-- `_BaseLFUCache.__getitem__`: a miss raises not-found; a hit increments
the key's frequency and returns the object. -/
def lfuGetItem (s : LFUCache K V) (k : K) : Except Err (V × LFUCache K V) :=
  match lookupKV s.cache k with
  | none => .error .notFound
  | some v =>
    match idxIncrement s.idx k with
    | some idx2 => .ok (v, { s with idx := idx2 })
    | none => .error .keyErr

/-- `_BaseLFUCache.__setitem__`: duplicate keys raise before any mutation;
at `max_size == 0` the call returns silently with no insertion and no
eviction; otherwise, if occupancy is at capacity, the least frequent key
is evicted first (evict-then-insert), and the new key is stored and
inserted into the index at frequency 1. -/
def lfuSetItem (s : LFUCache K V) (k : K) (v : V) : Except Err (LFUCache K V) :=
  if (lookupKV s.cache k).isSome then .error .dup
  else if s.maxSize = 0 then .ok s
  else if s.cache.length ≥ s.maxSize then
    match idxPop s.idx with
    | none => .error .emptyIdx
    | some (ek, idx2) =>
      if (lookupKV s.cache ek).isSome then
        .ok { s with cache := eraseKV s.cache ek ++ [(k, v)],
                     idx := idxInsert idx2 k }
      else .error .keyErr
  else .ok { s with cache := s.cache ++ [(k, v)], idx := idxInsert s.idx k }

/-- `_BaseLFUCache.__delitem__`. -/
def lfuDelItem (s : LFUCache K V) (k : K) : Except Err (LFUCache K V) :=
  if (lookupKV s.cache k).isSome then
    match idxDelete s.idx k with
    | some idx2 => .ok { s with cache := eraseKV s.cache k, idx := idx2 }
    | none => .error .keyErr
  else .error .notFound

/-- `_BaseLFUCache.get(key, default)`: a miss returns the default with no
mutation; a hit increments the key's frequency and returns the stored
object. -/
def lfuGetD (s : LFUCache K V) (k : K) (d : Option V) :
    Except Err (Option V × LFUCache K V) :=
  match lookupKV s.cache k with
  | none => .ok (d, s)
  | some v =>
    match idxIncrement s.idx k with
    | some idx2 => .ok (some v, { s with idx := idx2 })
    | none => .error .keyErr

/-- `_BaseLFUCache.pop`. -/
def lfuPop (s : LFUCache K V) (k : K) : Except Err (V × LFUCache K V) :=
  match lookupKV s.cache k with
  | none => .error .notFound
  | some v =>
    match idxDelete s.idx k with
    | some idx2 => .ok (v, { s with cache := eraseKV s.cache k, idx := idx2 })
    | none => .error .keyErr

/-- `_BaseLFUCache.clear`: empties the dict and replaces the index with a
fresh one. -/
def lfuClear (s : LFUCache K V) : LFUCache K V :=
  { s with cache := [], idx := [] }

/-- `_BaseLFUCache.popitem`: raises not-found on an empty cache, otherwise
pops the least frequent key from the index and removes it from the
dict. -/
def lfuPopitem (s : LFUCache K V) : Except Err ((K × V) × LFUCache K V) :=
  if s.cache.isEmpty then .error .notFound
  else
    match idxPop s.idx with
    | none => .error .emptyIdx
    | some (k, idx2) =>
      match lookupKV s.cache k with
      | some v => .ok ((k, v), { s with cache := eraseKV s.cache k, idx := idx2 })
      | none => .error .keyErr

/-- `_BaseLFUCache.__contains__` (reads only; the state is returned
unchanged). -/
def lfuContains (s : LFUCache K V) (k : K) : Bool × LFUCache K V :=
  ((lookupKV s.cache k).isSome, s)

/-- The `while len(self._cache) > self._max_size: del self._cache[...pop_least_frequent()]`
loop of the LFU `max_size` setter. -/
def lfuShrink (m : Nat) (c : List (K × V)) (idx : FreqIdx K) :
    Except Err (List (K × V) × FreqIdx K) :=
  if c.length ≤ m then .ok (c, idx)
  else
    match idxPop idx with
    | none => .error .emptyIdx
    | some (k, idx2) =>
      if h : (lookupKV c k).isSome then lfuShrink m (eraseKV c k) idx2
      else .error .keyErr
termination_by c.length
decreasing_by
  have hmem : ∃ e ∈ c, (e.1 == k) = true := by
    rcases hf : c.find? (fun e => e.1 == k) with _ | e
    · rw [lookupKV, hf] at h; simp at h
    · have h1 : e ∈ c := List.mem_of_find?_eq_some hf
      have h2 := List.find?_some hf
      exact ⟨e, h1, h2⟩
  obtain ⟨e, he, hpe⟩ := hmem
  have hlen := List.length_eraseP_of_mem (p := fun e => e.1 == k) he hpe
  simp only [eraseKV, hlen]
  omega

/-- The `max_size` setter of `_BaseLFUCache`: stores `abs(value)` and
evicts least frequent keys until occupancy fits. -/
def lfuSetMax (s : LFUCache K V) (value : Int) : Except Err (LFUCache K V) :=
  (lfuShrink value.natAbs s.cache s.idx).map
    (fun r => { maxSize := value.natAbs, cache := r.1, idx := r.2 })

end Caches

end BotoCache

namespace BotoCache

section IdxLemmas

variable {K V : Type} [DecidableEq K]

/-- Every key of the index paired with the frequency of its node, in
`iter_keys` order. -/
def keyFreqs (idx : FreqIdx K) : List (K × Nat) :=
  (idx.map (fun n => n.keys.map (fun k => (k, n.freq)))).flatten

/-- The structural invariants of `_FrequencyIndex` (§4.2 of the spec):
no linked node has an empty key set, node frequencies are at least 1 and
strictly increase from head to tail, and every live key is recorded in
exactly one node (no duplicates across or inside nodes). -/
def WFIdx (idx : FreqIdx K) : Prop :=
  (∀ n ∈ idx, n.keys ≠ []) ∧
  (∀ n ∈ idx, 1 ≤ n.freq) ∧
  (idx.map FreqNode.freq).Pairwise (· < ·) ∧
  (iterKeys idx).Nodup

/-- The frequency recorded for a key (the `_key_to_node` lookup composed
with `.frequency`). -/
def freqOf (idx : FreqIdx K) (k : K) : Option Nat :=
  lookupKV (keyFreqs idx) k

theorem iterKeys_nil : iterKeys ([] : FreqIdx K) = [] := rfl

theorem iterKeys_cons (n : FreqNode K) (rest : FreqIdx K) :
    iterKeys (n :: rest) = n.keys ++ iterKeys rest := by
  simp [iterKeys]

theorem keyFreqs_nil : keyFreqs ([] : FreqIdx K) = [] := rfl

theorem keyFreqs_cons (n : FreqNode K) (rest : FreqIdx K) :
    keyFreqs (n :: rest) = n.keys.map (fun k => (k, n.freq)) ++ keyFreqs rest := by
  simp [keyFreqs]

theorem iterKeys_eq_map_keyFreqs (idx : FreqIdx K) :
    iterKeys idx = (keyFreqs idx).map Prod.fst := by
  induction idx with
  | nil => rfl
  | cons n rest ih =>
    simp only [iterKeys_cons, keyFreqs_cons, List.map_append, List.map_map, ih]
    congr 1
    exact (List.map_id n.keys).symm

theorem WFIdx_nil : WFIdx ([] : FreqIdx K) := by
  refine ⟨?_, ?_, ?_, ?_⟩ <;> simp [WFIdx, iterKeys]

theorem WFIdx_of_cons {n : FreqNode K} {rest : FreqIdx K}
    (h : WFIdx (n :: rest)) : WFIdx rest := by
  obtain ⟨hne, hpos, hinc, hnd⟩ := h
  refine ⟨fun m hm => hne m (List.mem_cons_of_mem n hm),
    fun m hm => hpos m (List.mem_cons_of_mem n hm), ?_, ?_⟩
  · exact (List.pairwise_cons.mp (by simpa using hinc)).2
  · rw [iterKeys_cons] at hnd
    exact hnd.of_append_right

theorem mem_keyFreqs_iff {idx : FreqIdx K} {e : K × Nat} :
    e ∈ keyFreqs idx ↔ ∃ m ∈ idx, e.1 ∈ m.keys ∧ e.2 = m.freq := by
  obtain ⟨e1, e2⟩ := e
  induction idx with
  | nil => simp [keyFreqs]
  | cons n rest ih =>
    rw [keyFreqs_cons]
    simp only [List.mem_append, List.mem_map, ih, List.mem_cons]
    constructor
    · rintro (⟨k, hk, hke⟩ | ⟨m, hm, h1, h2⟩)
      · obtain ⟨rfl, rfl⟩ := Prod.mk.injEq .. ▸ hke
        exact ⟨n, Or.inl rfl, hk, rfl⟩
      · exact ⟨m, Or.inr hm, h1, h2⟩
    · rintro ⟨m, hm | hm, h1, h2⟩
      · subst hm
        exact Or.inl ⟨e1, h1, by simp [h2]⟩
      · exact Or.inr ⟨m, hm, h1, h2⟩

theorem perm_cons_eraseP_beq {l : List K} {k : K} (h : k ∈ l) :
    l.Perm (k :: l.eraseP (· == k)) := by
  induction l with
  | nil => cases h
  | cons a t ih =>
    by_cases ha : (a == k) = true
    · obtain rfl : a = k := by simpa using ha
      rw [List.eraseP_cons_of_pos (p := fun x => x == a) ha]
    · have hk : k ∈ t := by
        rcases List.mem_cons.mp h with hk1 | h2
        · exact absurd (by simp [hk1]) ha
        · exact h2
      rw [List.eraseP_cons_of_neg (p := fun x => x == k) ha]
      exact ((ih hk).cons a).trans (List.Perm.swap k a _)

theorem idxInsert_spec (idx : FreqIdx K) (k : K) (hwf : WFIdx idx)
    (hfresh : k ∉ iterKeys idx) :
    WFIdx (idxInsert idx k) ∧
    (keyFreqs (idxInsert idx k)).Perm ((k, 1) :: keyFreqs idx) := by
  obtain ⟨hne, hpos, hinc, hnd⟩ := hwf
  cases idx with
  | nil =>
    constructor
    · refine ⟨?_, ?_, ?_, ?_⟩ <;> simp [idxInsert, iterKeys]
    · simp [idxInsert, keyFreqs]
  | cons n rest =>
    rw [iterKeys_cons] at hnd hfresh
    by_cases h1 : n.freq = 1
    · simp only [idxInsert, if_pos h1]
      have hperm : ((n.keys ++ [k]) ++ iterKeys rest).Perm
          (k :: (n.keys ++ iterKeys rest)) := by
        rw [List.append_assoc, List.singleton_append]
        exact List.perm_middle
      constructor
      · refine ⟨?_, ?_, ?_, ?_⟩
        · intro m hm
          rcases List.mem_cons.mp hm with rfl | hm2
          · simp
          · exact hne m (List.mem_cons_of_mem n hm2)
        · intro m hm
          rcases List.mem_cons.mp hm with rfl | hm2
          · exact hpos n (List.mem_cons_self n rest)
          · exact hpos m (List.mem_cons_of_mem n hm2)
        · simpa using hinc
        · rw [iterKeys_cons]
          simp only
          exact hperm.nodup_iff.mpr (by simp [hnd, hfresh])
      · rw [keyFreqs_cons, keyFreqs_cons]
        simp only [List.map_append, List.map_cons, List.map_nil, h1]
        rw [List.append_assoc, List.singleton_append]
        exact List.perm_middle
    · simp only [idxInsert, if_neg h1]
      have h1lt : ∀ m ∈ n :: rest, 1 < m.freq := by
        intro m hm
        rcases List.mem_cons.mp hm with hm1 | hm2
        · have := hpos n (List.mem_cons_self n rest)
          rw [hm1]
          omega
        · have hlt := (List.pairwise_cons.mp hinc).1
          have := hlt m.freq (List.mem_map_of_mem FreqNode.freq hm2)
          have := hpos n (List.mem_cons_self n rest)
          omega
      constructor
      · refine ⟨?_, ?_, ?_, ?_⟩
        · intro m hm
          rcases List.mem_cons.mp hm with rfl | hm2
          · simp
          · exact hne m hm2
        · intro m hm
          rcases List.mem_cons.mp hm with rfl | hm2
          · simp
          · exact hpos m hm2
        · rw [List.map_cons, List.pairwise_cons]
          refine ⟨?_, hinc⟩
          intro f hf
          rcases List.mem_map.mp hf with ⟨m, hm, rfl⟩
          exact h1lt m hm
        · rw [iterKeys_cons, iterKeys_cons]
          simp only [List.singleton_append, List.nodup_cons]
          exact ⟨by simpa using hfresh, hnd⟩
      · rw [keyFreqs_cons, keyFreqs_cons]
        simp

theorem idxPop_spec {idx : FreqIdx K} (hwf : WFIdx idx) (hne : idx ≠ []) :
    ∃ k f idx2, idxPop idx = some (k, idx2) ∧ WFIdx idx2 ∧
      keyFreqs idx = (k, f) :: keyFreqs idx2 ∧
      ∀ e ∈ keyFreqs idx, f ≤ e.2 := by
  have hwf0 := hwf
  obtain ⟨hnem, hpos, hinc, hnd⟩ := hwf
  cases idx with
  | nil => exact absurd rfl hne
  | cons n rest =>
    have hmin : ∀ e ∈ keyFreqs (n :: rest), n.freq ≤ e.2 := by
      intro e he
      obtain ⟨m, hm, _, he2⟩ := mem_keyFreqs_iff.mp he
      rcases List.mem_cons.mp hm with hm1 | hm2
      · rw [he2, hm1]
      · have := (List.pairwise_cons.mp (by simpa using hinc)).1 m.freq
          (List.mem_map_of_mem FreqNode.freq hm2)
        omega
    have hkeys := hnem n (List.mem_cons_self n rest)
    cases hk : n.keys with
    | nil => exact absurd hk hkeys
    | cons k ks =>
      cases ks with
      | nil =>
        refine ⟨k, n.freq, rest, by simp [idxPop, hk], WFIdx_of_cons hwf0, ?_, hmin⟩
        rw [keyFreqs_cons, hk]
        simp
      | cons k2 ks2 =>
        refine ⟨k, n.freq, { n with keys := k2 :: ks2 } :: rest,
          by simp [idxPop, hk], ?_, ?_, hmin⟩
        · refine ⟨?_, ?_, ?_, ?_⟩
          · intro m hm
            rcases List.mem_cons.mp hm with hm1 | hm2
            · rw [hm1]; simp
            · exact hnem m (List.mem_cons_of_mem n hm2)
          · intro m hm
            rcases List.mem_cons.mp hm with hm1 | hm2
            · rw [hm1]; exact hpos n (List.mem_cons_self n rest)
            · exact hpos m (List.mem_cons_of_mem n hm2)
          · simpa using hinc
          · rw [iterKeys_cons] at hnd ⊢
            rw [hk] at hnd
            simpa using hnd.of_cons
        · rw [keyFreqs_cons, keyFreqs_cons, hk]
          simp

theorem idxDelete_spec :
    ∀ {idx : FreqIdx K} {k : K}, WFIdx idx → k ∈ iterKeys idx →
    ∃ idx2 f, idxDelete idx k = some idx2 ∧ WFIdx idx2 ∧
      List.Sublist (idx2.map FreqNode.freq) (idx.map FreqNode.freq) ∧
      (keyFreqs idx).Perm ((k, f) :: keyFreqs idx2) := by
  intro idx
  induction idx with
  | nil => intro k _ hk; simp [iterKeys] at hk
  | cons n rest ih =>
    intro k hwf hk
    have hwf0 := hwf
    obtain ⟨hnem, hpos, hinc, hnd⟩ := hwf
    rw [iterKeys_cons] at hk hnd
    by_cases hkn : n.keys.contains k
    · have hkn2 : k ∈ n.keys := by simpa using hkn
      have hp := perm_cons_eraseP_beq hkn2
      by_cases hrem : (n.keys.eraseP (· == k)).isEmpty
      · have hrem2 : n.keys.eraseP (· == k) = [] := by
          simpa [List.isEmpty_iff] using hrem
        refine ⟨rest, n.freq, ?_, WFIdx_of_cons hwf0, ?_, ?_⟩
        · simp only [idxDelete, hkn, if_pos, hrem, if_true]
        · simp
        · rw [keyFreqs_cons]
          refine List.Perm.trans (List.Perm.append_right _ (hp.map _)) ?_
          rw [hrem2]
          simp
      · have hrem2 : n.keys.eraseP (· == k) ≠ [] := by
          simpa [List.isEmpty_iff] using hrem
        refine ⟨{ n with keys := n.keys.eraseP (· == k) } :: rest, n.freq,
          ?_, ?_, ?_, ?_⟩
        · simp only [idxDelete, hkn, if_pos, hrem, if_true]
          simp
        · refine ⟨?_, ?_, ?_, ?_⟩
          · intro m hm
            rcases List.mem_cons.mp hm with hm1 | hm2
            · rw [hm1]; exact hrem2
            · exact hnem m (List.mem_cons_of_mem n hm2)
          · intro m hm
            rcases List.mem_cons.mp hm with hm1 | hm2
            · rw [hm1]; exact hpos n (List.mem_cons_self n rest)
            · exact hpos m (List.mem_cons_of_mem n hm2)
          · simpa using hinc
          · rw [iterKeys_cons]
            simp only
            have : (n.keys ++ iterKeys rest).Perm
                (k :: (n.keys.eraseP (· == k) ++ iterKeys rest)) := by
              refine List.Perm.trans (List.Perm.append_right _ hp) ?_
              simp
            exact ((this.nodup_iff).mp hnd).of_cons
        · simp
        · rw [keyFreqs_cons, keyFreqs_cons]
          simp only
          refine List.Perm.trans (List.Perm.append_right _ (hp.map _)) ?_
          simp
    · have hkn2 : k ∉ n.keys := by simpa using hkn
      have hkrest : k ∈ iterKeys rest := by
        rcases List.mem_append.mp hk with h1 | h2
        · exact absurd h1 hkn2
        · exact h2
      obtain ⟨idx2, f, hdel, hwf2, hsub, hperm⟩ := ih (WFIdx_of_cons hwf0) hkrest
      refine ⟨n :: idx2, f, ?_, ?_, ?_, ?_⟩
      · simp only [idxDelete, hkn, if_neg, Bool.false_eq_true, if_false, hdel,
          Option.map_some]
        rfl
      · obtain ⟨hnem2, hpos2, hinc2, hnd2⟩ := hwf2
        have htl : (iterKeys rest).Perm (k :: iterKeys idx2) := by
          rw [iterKeys_eq_map_keyFreqs, iterKeys_eq_map_keyFreqs]
          simpa using hperm.map Prod.fst
        refine ⟨?_, ?_, ?_, ?_⟩
        · intro m hm
          rcases List.mem_cons.mp hm with hm1 | hm2
          · rw [hm1]; exact hnem n (List.mem_cons_self n rest)
          · exact hnem2 m hm2
        · intro m hm
          rcases List.mem_cons.mp hm with hm1 | hm2
          · rw [hm1]; exact hpos n (List.mem_cons_self n rest)
          · exact hpos2 m hm2
        · rw [List.map_cons, List.pairwise_cons]
          refine ⟨?_, hinc2⟩
          intro g hg
          have := (List.pairwise_cons.mp (by simpa using hinc)).1 g
            (hsub.mem hg)
          exact this
        · rw [iterKeys_cons]
          have hnd3 : (n.keys ++ (k :: iterKeys idx2)).Nodup :=
            ((List.Perm.append_left n.keys htl).nodup_iff).mp hnd
          refine List.Nodup.sublist ?_ hnd3
          exact List.Sublist.append_left (List.sublist_cons_self k _) n.keys
      · rw [List.map_cons, List.map_cons]
        exact hsub.cons₂ n.freq
      · rw [keyFreqs_cons, keyFreqs_cons]
        refine List.Perm.trans (List.Perm.append_left _ hperm) ?_
        exact List.perm_middle

theorem idxIncrement_spec :
    ∀ {idx : FreqIdx K} {k : K}, WFIdx idx → k ∈ iterKeys idx →
    ∃ idx2 f, idxIncrement idx k = some idx2 ∧ WFIdx idx2 ∧
      f ∈ idx.map FreqNode.freq ∧
      (∀ g ∈ idx2.map FreqNode.freq, g ∈ idx.map FreqNode.freq ∨ g = f + 1) ∧
      ∃ rkf, (keyFreqs idx).Perm ((k, f) :: rkf) ∧
        (keyFreqs idx2).Perm ((k, f + 1) :: rkf) := by
  intro idx
  induction idx with
  | nil => intro k _ hk; simp [iterKeys] at hk
  | cons n rest ih =>
    intro k hwf hk
    have hwf0 := hwf
    obtain ⟨hnem, hpos, hinc, hnd⟩ := hwf
    rw [iterKeys_cons] at hk hnd
    by_cases hkn : n.keys.contains k
    · have hkn2 : k ∈ n.keys := by simpa using hkn
      have hp := perm_cons_eraseP_beq hkn2
      have hposn := hpos n (List.mem_cons_self n rest)
      have hnd2 : (k :: (n.keys.eraseP (· == k) ++ iterKeys rest)).Nodup := by
        refine (List.Perm.nodup_iff ?_).mp hnd
        refine (List.Perm.append_right _ hp).trans ?_
        simp
      have hkf1 : (keyFreqs (n :: rest)).Perm
          ((k, n.freq) :: ((n.keys.eraseP (· == k)).map (fun x => (x, n.freq))
            ++ keyFreqs rest)) := by
        rw [keyFreqs_cons]
        refine (List.Perm.append_right _ (hp.map _)).trans ?_
        simp
      cases rest with
      | nil =>
        by_cases hrem : (n.keys.eraseP (· == k)).isEmpty
        · have hrem2 : n.keys.eraseP (· == k) = [] := by
            simpa [List.isEmpty_iff] using hrem
          refine ⟨[⟨n.freq + 1, [k]⟩], n.freq, by simp [idxIncrement, hkn, hkn2, hrem],
            ?_, by simp, by simp, ?_⟩
          · refine ⟨by simp, by simp, by simp, ?_⟩
            simp [iterKeys]
          · refine ⟨(n.keys.eraseP (· == k)).map (fun x => (x, n.freq))
              ++ keyFreqs ([] : FreqIdx K), hkf1, ?_⟩
            rw [hrem2, keyFreqs_cons, keyFreqs_nil]
            simp
        · have hrem2 : n.keys.eraseP (· == k) ≠ [] := by
            simpa [List.isEmpty_iff] using hrem
          refine ⟨[{ n with keys := n.keys.eraseP (· == k) }, ⟨n.freq + 1, [k]⟩],
            n.freq, by simp [idxIncrement, hkn, hkn2, hrem], ?_, by simp, ?_, ?_⟩
          · refine ⟨?_, ?_, by simp, ?_⟩
            · intro m hm
              rcases List.mem_cons.mp hm with hm1 | hm2
              · rw [hm1]; exact hrem2
              · rcases List.mem_cons.mp hm2 with hm3 | hm4
                · rw [hm3]; simp
                · simp at hm4
            · intro m hm
              rcases List.mem_cons.mp hm with hm1 | hm2
              · rw [hm1]; exact hposn
              · rcases List.mem_cons.mp hm2 with hm3 | hm4
                · rw [hm3]; simp
                · simp at hm4
            · rw [iterKeys_cons, iterKeys_cons, iterKeys_nil]
              simp only [List.append_nil]
              have hper : ((n.keys.eraseP (· == k)) ++ [k]).Perm
                  (k :: (n.keys.eraseP (· == k))) := by
                have := @List.perm_middle K k (n.keys.eraseP (· == k)) []
                simpa using this
              refine (hper.nodup_iff).mpr ?_
              have h3 := hnd2
              rw [iterKeys_nil, List.append_nil] at h3
              exact h3
          · intro g hg
            simp at hg
            rcases hg with hg1 | hg2
            · exact Or.inl (by simp [hg1])
            · exact Or.inr hg2
          · refine ⟨(n.keys.eraseP (· == k)).map (fun x => (x, n.freq))
              ++ keyFreqs ([] : FreqIdx K), hkf1, ?_⟩
            rw [keyFreqs_cons, keyFreqs_cons, keyFreqs_nil]
            simp only [List.map_cons, List.map_nil, List.append_nil]
            have := @List.perm_middle (K × Nat) (k, n.freq + 1)
              ((n.keys.eraseP (· == k)).map (fun x => (x, n.freq))) []
            simpa using this
      | cons m rest2 =>
        rw [List.map_cons, List.map_cons] at hinc
        have hcons1 := List.pairwise_cons.mp hinc
        have hnm : n.freq < m.freq := hcons1.1 m.freq (List.mem_cons_self _ _)
        have htail := hcons1.2
        have hcons2 := List.pairwise_cons.mp htail
        have hmr : ∀ g ∈ List.map FreqNode.freq rest2, m.freq < g := hcons2.1
        have hp2 : (List.map FreqNode.freq rest2).Pairwise (· < ·) := hcons2.2
        have hnr : ∀ g ∈ List.map FreqNode.freq rest2, n.freq < g :=
          fun g hg => hcons1.1 g (List.mem_cons_of_mem _ hg)
        rw [iterKeys_cons] at hnd2
        by_cases hfm : m.freq = n.freq + 1
        · by_cases hrem : (n.keys.eraseP (· == k)).isEmpty
          · have hrem2 : n.keys.eraseP (· == k) = [] := by
              simpa [List.isEmpty_iff] using hrem
            refine ⟨{ m with keys := m.keys ++ [k] } :: rest2, n.freq,
              by simp [idxIncrement, hkn, hkn2, hrem, hfm], ?_, by simp, ?_, ?_⟩
            · refine ⟨?_, ?_, ?_, ?_⟩
              · intro x hx
                rcases List.mem_cons.mp hx with hx1 | hx2
                · rw [hx1]; simp
                · exact hnem x (by simp [hx2])
              · intro x hx
                rcases List.mem_cons.mp hx with hx1 | hx2
                · rw [hx1]
                  exact hpos m (by simp)
                · exact hpos x (by simp [hx2])
              · simp only [List.map_cons]
                exact List.pairwise_cons.mpr ⟨hmr, hp2⟩
              · rw [iterKeys_cons]
                simp only
                have hper : ((m.keys ++ [k]) ++ iterKeys rest2).Perm
                    (k :: (m.keys ++ iterKeys rest2)) := by
                  rw [List.append_assoc, List.singleton_append]
                  exact List.perm_middle
                refine (hper.nodup_iff).mpr ?_
                rw [hrem2] at hnd2
                simpa using hnd2
            · intro g hg
              simp only [List.map_cons] at hg ⊢
              exact Or.inl (List.mem_cons_of_mem _ hg)
            · refine ⟨(n.keys.eraseP (· == k)).map (fun x => (x, n.freq))
                ++ keyFreqs (m :: rest2), hkf1, ?_⟩
              rw [hrem2, keyFreqs_cons, keyFreqs_cons]
              simp only [List.map_nil, List.nil_append, List.map_append,
                List.map_cons, List.map_nil, hfm]
              rw [List.append_assoc, List.singleton_append]
              exact List.perm_middle
          · have hrem2 : n.keys.eraseP (· == k) ≠ [] := by
              simpa [List.isEmpty_iff] using hrem
            refine ⟨{ n with keys := n.keys.eraseP (· == k) } ::
                { m with keys := m.keys ++ [k] } :: rest2, n.freq,
              by simp [idxIncrement, hkn, hkn2, hrem, hfm], ?_, by simp, ?_, ?_⟩
            · refine ⟨?_, ?_, ?_, ?_⟩
              · intro x hx
                rcases List.mem_cons.mp hx with hx1 | hx2
                · rw [hx1]; exact hrem2
                · rcases List.mem_cons.mp hx2 with hx3 | hx4
                  · rw [hx3]; simp
                  · exact hnem x (by simp [hx4])
              · intro x hx
                rcases List.mem_cons.mp hx with hx1 | hx2
                · rw [hx1]; exact hposn
                · rcases List.mem_cons.mp hx2 with hx3 | hx4
                  · rw [hx3]; exact hpos m (by simp)
                  · exact hpos x (by simp [hx4])
              · exact hinc
              · rw [iterKeys_cons, iterKeys_cons]
                simp only
                have hper : ((n.keys.eraseP (· == k)) ++
                    ((m.keys ++ [k]) ++ iterKeys rest2)).Perm
                    (k :: ((n.keys.eraseP (· == k)) ++
                      (m.keys ++ iterKeys rest2))) := by
                  refine (List.Perm.append_left _ ?_).trans List.perm_middle
                  rw [List.append_assoc, List.singleton_append]
                  exact List.perm_middle
                exact (hper.nodup_iff).mpr hnd2
            · intro g hg
              simp only [List.map_cons] at hg ⊢
              rcases List.mem_cons.mp hg with hg1 | hg2
              · exact Or.inl (by rw [hg1]; exact List.mem_cons_self _ _)
              · exact Or.inl (List.mem_cons_of_mem _ hg2)
            · refine ⟨(n.keys.eraseP (· == k)).map (fun x => (x, n.freq))
                ++ keyFreqs (m :: rest2), hkf1, ?_⟩
              rw [keyFreqs_cons, keyFreqs_cons, keyFreqs_cons]
              simp only [List.map_append, List.map_cons, List.map_nil, hfm]
              refine (List.Perm.append_left _ ?_).trans List.perm_middle
              rw [List.append_assoc, List.singleton_append]
              exact List.perm_middle
        · have hfm2 : n.freq + 1 < m.freq := by omega
          by_cases hrem : (n.keys.eraseP (· == k)).isEmpty
          · have hrem2 : n.keys.eraseP (· == k) = [] := by
              simpa [List.isEmpty_iff] using hrem
            refine ⟨(⟨n.freq + 1, [k]⟩ : FreqNode K) :: m :: rest2, n.freq,
              by simp [idxIncrement, hkn, hkn2, hrem, hfm], ?_, by simp, ?_, ?_⟩
            · refine ⟨?_, ?_, ?_, ?_⟩
              · intro x hx
                rcases List.mem_cons.mp hx with hx1 | hx2
                · rw [hx1]; simp
                · exact hnem x (by simp [hx2])
              · intro x hx
                rcases List.mem_cons.mp hx with hx1 | hx2
                · rw [hx1]; simp
                · exact hpos x (by simp [hx2])
              · simp only [List.map_cons]
                refine List.pairwise_cons.mpr ⟨?_, htail⟩
                intro g hg
                rcases List.mem_cons.mp hg with hg1 | hg2
                · omega
                · have := hmr g hg2
                  omega
              · rw [iterKeys_cons, iterKeys_cons]
                simp only [List.singleton_append]
                rw [hrem2] at hnd2
                simpa using hnd2
            · intro g hg
              simp only [List.map_cons] at hg ⊢
              rcases List.mem_cons.mp hg with hg1 | hg2
              · exact Or.inr hg1
              · exact Or.inl (List.mem_cons_of_mem _ hg2)
            · refine ⟨(n.keys.eraseP (· == k)).map (fun x => (x, n.freq))
                ++ keyFreqs (m :: rest2), hkf1, ?_⟩
              rw [hrem2]
              simp [keyFreqs_cons]
          · have hrem2 : n.keys.eraseP (· == k) ≠ [] := by
              simpa [List.isEmpty_iff] using hrem
            refine ⟨{ n with keys := n.keys.eraseP (· == k) } ::
                (⟨n.freq + 1, [k]⟩ : FreqNode K) :: m :: rest2, n.freq,
              by simp [idxIncrement, hkn, hkn2, hrem, hfm], ?_, by simp, ?_, ?_⟩
            · refine ⟨?_, ?_, ?_, ?_⟩
              · intro x hx
                rcases List.mem_cons.mp hx with hx1 | hx2
                · rw [hx1]; exact hrem2
                · rcases List.mem_cons.mp hx2 with hx3 | hx4
                  · rw [hx3]; simp
                  · exact hnem x (by simp [hx4])
              · intro x hx
                rcases List.mem_cons.mp hx with hx1 | hx2
                · rw [hx1]; exact hposn
                · rcases List.mem_cons.mp hx2 with hx3 | hx4
                  · rw [hx3]; simp
                  · exact hpos x (by simp [hx4])
              · simp only [List.map_cons]
                refine List.pairwise_cons.mpr ⟨?_, ?_⟩
                · intro g hg
                  rcases List.mem_cons.mp hg with hg1 | hg2
                  · omega
                  · rcases List.mem_cons.mp hg2 with hg3 | hg4
                    · omega
                    · have := hnr g hg4
                      omega
                · refine List.pairwise_cons.mpr ⟨?_, htail⟩
                  intro g hg
                  rcases List.mem_cons.mp hg with hg1 | hg2
                  · omega
                  · have := hmr g hg2
                    omega
              · rw [iterKeys_cons, iterKeys_cons, iterKeys_cons]
                simp only [List.singleton_append]
                have hper : ((n.keys.eraseP (· == k)) ++
                    (k :: (m.keys ++ iterKeys rest2))).Perm
                    (k :: ((n.keys.eraseP (· == k)) ++
                      (m.keys ++ iterKeys rest2))) := List.perm_middle
                exact (hper.nodup_iff).mpr hnd2
            · intro g hg
              simp only [List.map_cons] at hg ⊢
              rcases List.mem_cons.mp hg with hg1 | hg2
              · exact Or.inl (by rw [hg1]; exact List.mem_cons_self _ _)
              · rcases List.mem_cons.mp hg2 with hg3 | hg4
                · exact Or.inr hg3
                · exact Or.inl (List.mem_cons_of_mem _ hg4)
            · refine ⟨(n.keys.eraseP (· == k)).map (fun x => (x, n.freq))
                ++ keyFreqs (m :: rest2), hkf1, ?_⟩
              rw [keyFreqs_cons, keyFreqs_cons, keyFreqs_cons]
              simp only [List.map_cons, List.map_nil, List.singleton_append]
              exact List.perm_middle
    · have hkn2 : k ∉ n.keys := by simpa using hkn
      have hkrest : k ∈ iterKeys rest := by
        rcases List.mem_append.mp hk with h1 | h2
        · exact absurd h1 hkn2
        · exact h2
      obtain ⟨idx2, f, hincr, hwf2, hfmem, hfset, rkf, hkfr1, hkfr2⟩ :=
        ih (WFIdx_of_cons hwf0) hkrest
      have hgen : ∀ g ∈ List.map FreqNode.freq rest, n.freq < g :=
        (List.pairwise_cons.mp (by simpa using hinc)).1
      refine ⟨n :: idx2, f, ?_, ?_,
        by rw [List.map_cons]; exact List.mem_cons_of_mem _ hfmem, ?_, ?_⟩
      · simp only [idxIncrement, hkn, Bool.false_eq_true, if_false, hincr,
          Option.map_some]
        rfl
      · obtain ⟨hnem2, hpos2, hinc2, hnd2b⟩ := hwf2
        refine ⟨?_, ?_, ?_, ?_⟩
        · intro x hx
          rcases List.mem_cons.mp hx with hx1 | hx2
          · rw [hx1]; exact hnem n (List.mem_cons_self n rest)
          · exact hnem2 x hx2
        · intro x hx
          rcases List.mem_cons.mp hx with hx1 | hx2
          · rw [hx1]; exact hpos n (List.mem_cons_self n rest)
          · exact hpos2 x hx2
        · rw [List.map_cons]
          refine List.pairwise_cons.mpr ⟨?_, hinc2⟩
          intro g hg
          rcases hfset g hg with hg1 | hg2
          · exact hgen g hg1
          · have := hgen f hfmem
            omega
        · rw [iterKeys_cons]
          have htl1 : (iterKeys rest).Perm (k :: rkf.map Prod.fst) := by
            rw [iterKeys_eq_map_keyFreqs]
            simpa using hkfr1.map Prod.fst
          have htl2 : (iterKeys idx2).Perm (k :: rkf.map Prod.fst) := by
            rw [iterKeys_eq_map_keyFreqs]
            simpa using hkfr2.map Prod.fst
          have htl : (iterKeys idx2).Perm (iterKeys rest) :=
            htl2.trans htl1.symm
          exact ((List.Perm.append_left n.keys htl).nodup_iff).mpr hnd
      · intro g hg
        rw [List.map_cons] at hg
        rcases List.mem_cons.mp hg with hg1 | hg2
        · exact Or.inl (by rw [List.map_cons, hg1]; exact List.mem_cons_self _ _)
        · rcases hfset g hg2 with hg3 | hg4
          · exact Or.inl (by
              rw [List.map_cons]
              exact List.mem_cons_of_mem _ hg3)
          · exact Or.inr hg4
      · refine ⟨n.keys.map (fun x => (x, n.freq)) ++ rkf, ?_, ?_⟩
        · rw [keyFreqs_cons]
          exact (List.Perm.append_left _ hkfr1).trans List.perm_middle
        · rw [keyFreqs_cons]
          exact (List.Perm.append_left _ hkfr2).trans List.perm_middle

end IdxLemmas

end BotoCache

namespace BotoCache

section CacheLemmas

variable {K V : Type} [DecidableEq K]

theorem lookupKV_nil (k : K) : lookupKV ([] : List (K × V)) k = none := rfl

theorem lookupKV_cons (e : K × V) (l : List (K × V)) (k : K) :
    lookupKV (e :: l) k = if e.1 == k then some e.2 else lookupKV l k := by
  by_cases h : e.1 == k <;> simp [lookupKV, List.find?_cons, h]

theorem lookupKV_isSome_iff {l : List (K × V)} {k : K} :
    (lookupKV l k).isSome ↔ k ∈ l.map Prod.fst := by
  induction l with
  | nil => simp [lookupKV]
  | cons e t ih =>
    rw [lookupKV_cons]
    cases hb : (e.1 == k) with
    | true =>
      have he : e.1 = k := by simpa using hb
      simp [he]
    | false =>
      have hne : e.1 ≠ k := by simpa using hb
      simp only [Bool.false_eq_true, if_false]
      rw [ih]
      simp [Ne.symm hne]

theorem lookupKV_eq_none_iff {l : List (K × V)} {k : K} :
    lookupKV l k = none ↔ k ∉ l.map Prod.fst := by
  rw [← lookupKV_isSome_iff]
  cases lookupKV l k <;> simp

theorem lookupKV_perm {l1 l2 : List (K × V)} (h : l1.Perm l2) :
    (l1.map Prod.fst).Nodup → ∀ k, lookupKV l1 k = lookupKV l2 k := by
  induction h with
  | nil => intro _ _; rfl
  | cons x _ ih =>
    intro hnd k
    rw [List.map_cons, List.nodup_cons] at hnd
    rw [lookupKV_cons, lookupKV_cons, ih hnd.2 k]
  | swap x y l =>
    intro hnd k
    rw [lookupKV_cons, lookupKV_cons, lookupKV_cons, lookupKV_cons]
    by_cases hx : x.1 == k
    · by_cases hy : y.1 == k
      · rw [List.map_cons, List.map_cons, List.nodup_cons] at hnd
        have hx2 : x.1 = k := by simpa using hx
        have hy2 : y.1 = k := by simpa using hy
        exact absurd (by rw [hy2, ← hx2]; exact List.mem_cons_self _ _) hnd.1
      · simp [hx, hy]
    · by_cases hy : y.1 == k
      · simp [hx, hy]
      · simp [hx, hy]
  | trans h1 _ ih1 ih2 =>
    intro hnd k
    rw [ih1 hnd k, ih2 (((h1.map Prod.fst).nodup_iff).mp hnd) k]

theorem eraseKV_map_fst (l : List (K × V)) (k : K) :
    (eraseKV l k).map Prod.fst = (l.map Prod.fst).eraseP (· == k) := by
  induction l with
  | nil => rfl
  | cons e t ih =>
    by_cases h : e.1 == k
    · simp [eraseKV, List.eraseP_cons, h]
    · simp [eraseKV, List.eraseP_cons, h] at ih ⊢
      exact ih

theorem length_eraseKV_of_mem {l : List (K × V)} {k : K}
    (h : k ∈ l.map Prod.fst) : (eraseKV l k).length = l.length - 1 := by
  obtain ⟨e, he, hek⟩ := List.mem_map.mp h
  refine List.length_eraseP_of_mem he ?_
  simp [hek]

theorem dropToFit_eq_drop (m : Nat) :
    ∀ (l : List (K × V)), dropToFit m l = l.drop (l.length - m) := by
  intro l
  induction l with
  | nil => simp [dropToFit]
  | cons e t ih =>
    rw [dropToFit]
    by_cases h : (e :: t).length > m
    · rw [if_pos h, ih]
      have : (e :: t).length - m = (t.length - m) + 1 := by
        simp at h
        simp [List.length_cons]
        omega
      rw [this, List.drop_succ_cons]
    · rw [if_neg h]
      have : (e :: t).length - m = 0 := by
        simp at h
        simp [List.length_cons]
        omega
      rw [this, List.drop_zero]

/-- The joint invariant of an LFU cache state: the frequency index is
well formed, it indexes exactly the keys of the backing dict, and the
dict's keys are unique. -/
def SyncLFU (s : LFUCache K V) : Prop :=
  WFIdx s.idx ∧ (s.cache.map Prod.fst).Perm (iterKeys s.idx) ∧
    (s.cache.map Prod.fst).Nodup

theorem idxIncrement_mem :
    ∀ {idx : FreqIdx K} {k : K} {idx2 : FreqIdx K},
      idxIncrement idx k = some idx2 → k ∈ iterKeys idx := by
  intro idx
  induction idx with
  | nil => intro k idx2 h; simp [idxIncrement] at h
  | cons n rest ih =>
    intro k idx2 h
    rw [iterKeys_cons]
    by_cases hkn : n.keys.contains k
    · exact List.mem_append.mpr (Or.inl (by simpa using hkn))
    · simp only [idxIncrement, hkn, Bool.false_eq_true, if_false] at h
      rcases ho : idxIncrement rest k with _ | idx3
      · rw [ho] at h; cases h
      · exact List.mem_append.mpr (Or.inr (ih ho))

theorem freqOf_of_perm {idx : FreqIdx K} {k : K} {f : Nat} {rkf : List (K × Nat)}
    (hwf : WFIdx idx) (hp : (keyFreqs idx).Perm ((k, f) :: rkf)) :
    freqOf idx k = some f ∧ ∀ k2, k2 ≠ k → freqOf idx k2 = lookupKV rkf k2 := by
  have hnd : ((keyFreqs idx).map Prod.fst).Nodup := by
    rw [← iterKeys_eq_map_keyFreqs]
    exact hwf.2.2.2
  constructor
  · rw [freqOf, lookupKV_perm hp hnd k, lookupKV_cons]
    simp
  · intro k2 hk2
    rw [freqOf, lookupKV_perm hp hnd k2, lookupKV_cons]
    have : ¬((k, f).1 == k2) = true := by simpa using Ne.symm hk2
    rw [if_neg this]

/-- `increment` on a key of the cache, at the level of the joint LFU
invariant: it succeeds, preserves the invariant, bumps exactly the touched
key's frequency by one, and leaves every other key's frequency alone. -/
theorem sync_increment {s : LFUCache K V} {k : K} (hs : SyncLFU s)
    (hmem : k ∈ s.cache.map Prod.fst) :
    ∃ idx2 f, idxIncrement s.idx k = some idx2 ∧
      SyncLFU { s with idx := idx2 } ∧
      freqOf s.idx k = some f ∧ freqOf idx2 k = some (f + 1) ∧
      ∀ k2, k2 ≠ k → freqOf idx2 k2 = freqOf s.idx k2 := by
  obtain ⟨hwf, hperm, hnd⟩ := hs
  have hk : k ∈ iterKeys s.idx := hperm.mem_iff.mp hmem
  obtain ⟨idx2, f, hinc, hwf2, _, _, rkf, hp1, hp2⟩ := idxIncrement_spec hwf hk
  have h1 := freqOf_of_perm hwf hp1
  have h2 := freqOf_of_perm hwf2 hp2
  refine ⟨idx2, f, hinc, ⟨hwf2, ?_, hnd⟩, h1.1, h2.1, ?_⟩
  · have e1 : (iterKeys s.idx).Perm (k :: rkf.map Prod.fst) := by
      rw [iterKeys_eq_map_keyFreqs]
      simpa using hp1.map Prod.fst
    have e2 : (iterKeys idx2).Perm (k :: rkf.map Prod.fst) := by
      rw [iterKeys_eq_map_keyFreqs]
      simpa using hp2.map Prod.fst
    exact (hperm.trans e1).trans e2.symm
  · intro k2 hk2
    rw [h2.2 k2 hk2, h1.2 k2 hk2]

/-- `insert` of a fresh key, at the level of the joint LFU invariant:
appending the entry to the dict and inserting the key into the index
preserves the invariant, records the key at frequency 1, and leaves every
other key's frequency alone. -/
theorem sync_insert {s : LFUCache K V} {k : K} (v : V) (hs : SyncLFU s)
    (hfresh : k ∉ s.cache.map Prod.fst) :
    SyncLFU { s with cache := s.cache ++ [(k, v)], idx := idxInsert s.idx k } ∧
      freqOf (idxInsert s.idx k) k = some 1 ∧
      ∀ k2, k2 ≠ k → freqOf (idxInsert s.idx k) k2 = freqOf s.idx k2 := by
  obtain ⟨hwf, hperm, hnd⟩ := hs
  have hk : k ∉ iterKeys s.idx := fun h => hfresh (hperm.mem_iff.mpr h)
  obtain ⟨hwf2, hp⟩ := idxInsert_spec s.idx k hwf hk
  have h1 := freqOf_of_perm hwf2 hp
  refine ⟨⟨hwf2, ?_, ?_⟩, h1.1, fun k2 hk2 => h1.2 k2 hk2⟩
  · have e2 : (iterKeys (idxInsert s.idx k)).Perm (k :: iterKeys s.idx) := by
      rw [iterKeys_eq_map_keyFreqs, iterKeys_eq_map_keyFreqs]
      simpa using hp.map Prod.fst
    refine List.Perm.trans ?_ e2.symm
    have : (s.cache.map Prod.fst ++ [k]).Perm (k :: s.cache.map Prod.fst) := by
      simpa using (List.perm_middle (a := k))
    simpa using this.trans (hperm.cons k)
  · simp only [List.map_append, List.map_cons, List.map_nil]
    rw [List.nodup_append]
    refine ⟨hnd, List.nodup_singleton k, ?_⟩
    intro a ha hb
    rw [List.mem_singleton] at hb
    exact hfresh (hb ▸ ha)

/-- `delete` of a present key, at the level of the joint LFU invariant:
it succeeds, preserves the invariant, unregisters exactly the deleted key,
and leaves every other key's frequency alone. -/
theorem sync_delete {s : LFUCache K V} {k : K} (hs : SyncLFU s)
    (hmem : k ∈ s.cache.map Prod.fst) :
    ∃ idx2 f, idxDelete s.idx k = some idx2 ∧
      SyncLFU { s with cache := eraseKV s.cache k, idx := idx2 } ∧
      freqOf s.idx k = some f ∧ freqOf idx2 k = none ∧
      ∀ k2, k2 ≠ k → freqOf idx2 k2 = freqOf s.idx k2 := by
  obtain ⟨hwf, hperm, hnd⟩ := hs
  have hk : k ∈ iterKeys s.idx := hperm.mem_iff.mp hmem
  obtain ⟨idx2, f, hdel, hwf2, _, hp⟩ := idxDelete_spec hwf hk
  have h1 := freqOf_of_perm hwf hp
  have e1 : (iterKeys s.idx).Perm (k :: iterKeys idx2) := by
    rw [iterKeys_eq_map_keyFreqs, iterKeys_eq_map_keyFreqs]
    simpa using hp.map Prod.fst
  have hke : (s.cache.map Prod.fst).Perm
      (k :: (s.cache.map Prod.fst).eraseP (· == k)) := perm_cons_eraseP_beq hmem
  have hperm2 : ((eraseKV s.cache k).map Prod.fst).Perm (iterKeys idx2) := by
    rw [eraseKV_map_fst]
    have := (hke.symm.trans hperm).trans e1
    exact (List.Perm.cons_inv this)
  refine ⟨idx2, f, hdel, ⟨hwf2, hperm2, ?_⟩, h1.1, ?_, ?_⟩
  · rw [eraseKV_map_fst]
    exact hnd.sublist (List.eraseP_sublist _)
  · rw [freqOf, lookupKV_eq_none_iff, ← iterKeys_eq_map_keyFreqs]
    have hnd2 : (k :: iterKeys idx2).Nodup := (e1.nodup_iff).mp
      ((hperm.nodup_iff).mp hnd)
    exact (List.nodup_cons.mp hnd2).1
  · intro k2 hk2
    rw [h1.2 k2 hk2]
    rfl

/-- `pop_least_frequent` on a nonempty cache, at the level of the joint
LFU invariant: it succeeds, the victim is a key of the cache with minimal
recorded frequency — the head key of the head node, i.e. the least
recently touched among the keys of minimal frequency — and removing the
victim from dict and index preserves the invariant. -/
theorem sync_pop {s : LFUCache K V} (hs : SyncLFU s) (hne : s.cache ≠ []) :
    ∃ k f idx2, idxPop s.idx = some (k, idx2) ∧
      k ∈ s.cache.map Prod.fst ∧
      SyncLFU { s with cache := eraseKV s.cache k, idx := idx2 } ∧
      freqOf s.idx k = some f ∧
      (∀ e ∈ keyFreqs s.idx, f ≤ e.2) ∧
      iterKeys s.idx = k :: iterKeys idx2 := by
  obtain ⟨hwf, hperm, hnd⟩ := hs
  have hine : s.idx ≠ [] := by
    intro h
    rw [h] at hperm
    have : s.cache.map Prod.fst = [] := List.Perm.eq_nil (by simpa [iterKeys] using hperm)
    exact hne (List.map_eq_nil_iff.mp this)
  obtain ⟨k, f, idx2, hpop, hwf2, hkf, hmin⟩ := idxPop_spec hwf hine
  have hiter : iterKeys s.idx = k :: iterKeys idx2 := by
    rw [iterKeys_eq_map_keyFreqs, iterKeys_eq_map_keyFreqs, hkf, List.map_cons]
  have hmem : k ∈ s.cache.map Prod.fst := by
    rw [hperm.mem_iff, hiter]
    exact List.mem_cons_self _ _
  have hke : (s.cache.map Prod.fst).Perm
      (k :: (s.cache.map Prod.fst).eraseP (· == k)) := perm_cons_eraseP_beq hmem
  have hperm2 : ((eraseKV s.cache k).map Prod.fst).Perm (iterKeys idx2) := by
    rw [eraseKV_map_fst]
    have hx : (k :: (s.cache.map Prod.fst).eraseP (· == k)).Perm
        (k :: iterKeys idx2) := by
      rw [← hiter]
      exact hke.symm.trans hperm
    exact hx.cons_inv
  refine ⟨k, f, idx2, hpop, hmem, ⟨hwf2, hperm2, ?_⟩, ?_, hmin, hiter⟩
  · rw [eraseKV_map_fst]
    exact hnd.sublist (List.eraseP_sublist _)
  · rw [freqOf, hkf, lookupKV_cons]
    simp

theorem idxDelete_mem :
    ∀ {idx : FreqIdx K} {k : K} {idx2 : FreqIdx K},
      idxDelete idx k = some idx2 → k ∈ iterKeys idx := by
  intro idx
  induction idx with
  | nil => intro k idx2 h; simp [idxDelete] at h
  | cons n rest ih =>
    intro k idx2 h
    rw [iterKeys_cons]
    by_cases hkn : n.keys.contains k
    · exact List.mem_append.mpr (Or.inl (by simpa using hkn))
    · simp only [idxDelete, hkn, Bool.false_eq_true, if_false] at h
      rcases ho : idxDelete rest k with _ | idx3
      · rw [ho] at h; cases h
      · exact List.mem_append.mpr (Or.inr (ih ho))

end CacheLemmas

end BotoCache

namespace BotoCache

section CacheLemmas2

variable {K V : Type} [DecidableEq K]

theorem lookupKV_append_of_not_mem {l : List (K × V)} {k : K}
    (h : k ∉ l.map Prod.fst) (l2 : List (K × V)) :
    lookupKV (l ++ l2) k = lookupKV l2 k := by
  induction l with
  | nil => rfl
  | cons e t ih =>
    have h1 : ¬(e.1 == k) = true := by
      intro hb
      exact h (by simp [show e.1 = k by simpa using hb])
    rw [List.cons_append, lookupKV_cons, if_neg h1]
    exact ih (fun hm => h (List.mem_cons_of_mem _ hm))

theorem lookupKV_concat_self {l : List (K × V)} {k : K} (v : V)
    (h : k ∉ l.map Prod.fst) : lookupKV (l ++ [(k, v)]) k = some v := by
  rw [lookupKV_append_of_not_mem h, lookupKV_cons]
  simp

theorem moveToEnd_eq {l : List (K × V)} {k : K} {v : V}
    (h : lookupKV l k = some v) : moveToEnd l k = eraseKV l k ++ [(k, v)] := by
  simp only [moveToEnd, h]

theorem moveToEnd_perm {l : List (K × V)} {k : K} {v : V}
    (h : lookupKV l k = some v) :
    ((moveToEnd l k).map Prod.fst).Perm (l.map Prod.fst) := by
  have hmem : k ∈ l.map Prod.fst :=
    lookupKV_isSome_iff.mp (by rw [h]; rfl)
  rw [moveToEnd_eq h, List.map_append, eraseKV_map_fst]
  have h1 := @List.perm_middle K k ((l.map Prod.fst).eraseP (· == k)) []
  have h2 := perm_cons_eraseP_beq hmem
  simpa using h1.trans (by simpa using h2.symm)

theorem moveToEnd_getLast {l : List (K × V)} {k : K} {v : V}
    (h : lookupKV l k = some v) :
    (moveToEnd l k).getLast? = some (k, v) := by
  rw [moveToEnd_eq h]
  exact List.getLast?_concat _

theorem length_dropToFit (m : Nat) (l : List (K × V)) :
    (dropToFit m l).length = min m l.length := by
  rw [dropToFit_eq_drop, List.length_drop]
  omega

/-- The LFU `max_size` shrink loop under the joint invariant: it never
raises, preserves the invariant, shrinks the dict to `min m` entries, and
the surviving keys are exactly the tail of the `iter_keys` order — the
least frequent keys (and within the minimal frequency the least recently
touched) are evicted first. -/
theorem lfuShrink_spec (m : Nat) :
    ∀ (n : Nat) (c : List (K × V)) (idx : FreqIdx K), c.length = n →
      WFIdx idx → (c.map Prod.fst).Perm (iterKeys idx) →
      (c.map Prod.fst).Nodup →
      ∃ c2 idx2, lfuShrink m c idx = .ok (c2, idx2) ∧
        WFIdx idx2 ∧ (c2.map Prod.fst).Perm (iterKeys idx2) ∧
        (c2.map Prod.fst).Nodup ∧
        c2.length = min m c.length ∧
        iterKeys idx2 = (iterKeys idx).drop (c.length - m) := by
  intro n
  induction n using Nat.strong_induction_on with
  | _ n ih =>
    intro c idx hlen hwf hperm hnd
    by_cases hle : c.length ≤ m
    · refine ⟨c, idx, ?_, hwf, hperm, hnd, ?_, ?_⟩
      · rw [lfuShrink, if_pos hle]
      · omega
      · rw [Nat.sub_eq_zero_of_le hle, List.drop_zero]
    · have hcne : c ≠ [] := by
        intro h
        rw [h] at hle
        simp at hle
      obtain ⟨k, f, idx2, hpop0, hmem0, hs2, hfreq, hmin, hiter0⟩ :=
        sync_pop (s := (⟨0, c, idx⟩ : LFUCache K V)) ⟨hwf, hperm, hnd⟩ hcne
      have hpop : idxPop idx = some (k, idx2) := hpop0
      have hmem : k ∈ c.map Prod.fst := hmem0
      have hiter : iterKeys idx = k :: iterKeys idx2 := hiter0
      have hwf2 : WFIdx idx2 := hs2.1
      have hperm2 : ((eraseKV c k).map Prod.fst).Perm (iterKeys idx2) := hs2.2.1
      have hnd2 : ((eraseKV c k).map Prod.fst).Nodup := hs2.2.2
      have hsome : (lookupKV c k).isSome := lookupKV_isSome_iff.mpr hmem
      have hstep : lfuShrink m c idx = lfuShrink m (eraseKV c k) idx2 := by
        rw [lfuShrink, if_neg hle]
        simp only [hpop]
        rw [dif_pos hsome]
      have hlen2 : (eraseKV c k).length = c.length - 1 :=
        length_eraseKV_of_mem hmem
      have hlt : (eraseKV c k).length < n := by omega
      obtain ⟨c2, idx3, hrun, hwf3, hperm3, hnd3, hlen3, hiter3⟩ :=
        ih (eraseKV c k).length hlt (eraseKV c k) idx2 rfl hwf2 hperm2 hnd2
      refine ⟨c2, idx3, hstep.trans hrun, hwf3, hperm3, hnd3, ?_, ?_⟩
      · omega
      · rw [hlen2] at hiter3
        rw [hiter]
        have he : c.length - m = ((c.length - 1) - m) + 1 := by omega
        rw [he, List.drop_succ_cons]
        exact hiter3

end CacheLemmas2

end BotoCache

namespace BotoCache

section IdxRuns

variable {K V : Type} [DecidableEq K]

/-- One abstract `_FrequencyIndex` operation, as issued by `_BaseLFUCache`:
`insert`, `increment`, `delete`, or `pop_least_frequent`. -/
inductive IdxOp (K : Type) where
  | insOp (k : K)
  | incOp (k : K)
  | delOp (k : K)
  | popOp

/-- One index operation.  `insert` carries the freshness precondition
under which `_BaseLFUCache` issues it (only keys absent from the cache,
hence from the index, are inserted); the other operations fail exactly
where the source raises (`KeyError` for an untracked key, `CacheError`
for an empty index). -/
def stepIdx (idx : FreqIdx K) : IdxOp K → Option (FreqIdx K)
  | .insOp k => if k ∈ iterKeys idx then none else some (idxInsert idx k)
  | .incOp k => idxIncrement idx k
  | .delOp k => idxDelete idx k
  | .popOp => (idxPop idx).map (·.2)

/-- A whole sequence of index operations, left to right. -/
def runIdx (idx : FreqIdx K) : List (IdxOp K) → Option (FreqIdx K)
  | [] => some idx
  | op :: ops =>
    match stepIdx idx op with
    | some idx2 => runIdx idx2 ops
    | none => none

theorem stepIdx_wf {idx idx2 : FreqIdx K} {op : IdxOp K} (hwf : WFIdx idx)
    (h : stepIdx idx op = some idx2) : WFIdx idx2 := by
  cases op with
  | insOp k =>
    have h2 : (if k ∈ iterKeys idx then (none : Option (FreqIdx K))
        else some (idxInsert idx k)) = some idx2 := h
    by_cases hk : k ∈ iterKeys idx
    · rw [if_pos hk] at h2
      cases h2
    · rw [if_neg hk] at h2
      exact (Option.some.inj h2) ▸ (idxInsert_spec idx k hwf hk).1
  | incOp k =>
    have h2 : idxIncrement idx k = some idx2 := h
    obtain ⟨idx3, f, hinc, hwf2, _⟩ := idxIncrement_spec hwf (idxIncrement_mem h2)
    rw [h2] at hinc
    cases hinc
    exact hwf2
  | delOp k =>
    have h2 : idxDelete idx k = some idx2 := h
    obtain ⟨idx3, f, hdel, hwf2, _⟩ := idxDelete_spec hwf (idxDelete_mem h2)
    rw [h2] at hdel
    cases hdel
    exact hwf2
  | popOp =>
    have h2 : (idxPop idx).map (·.2) = some idx2 := h
    cases hp : idxPop idx with
    | none => rw [hp] at h2; cases h2
    | some p =>
      have hne : idx ≠ [] := by
        intro hnil
        rw [hnil] at hp
        cases hp
      obtain ⟨k, f, idx3, hpop, hwf2, _⟩ := idxPop_spec hwf hne
      rw [hpop] at hp
      cases hp
      rw [hpop] at h2
      have h3 : some idx3 = some idx2 := h2
      exact (Option.some.inj h3) ▸ hwf2

theorem runIdx_wf : ∀ (ops : List (IdxOp K)) {idx idx2 : FreqIdx K},
    WFIdx idx → runIdx idx ops = some idx2 → WFIdx idx2 := by
  intro ops
  induction ops with
  | nil =>
    intro idx idx2 hwf h
    exact (Option.some.inj h) ▸ hwf
  | cons op ops ih =>
    intro idx idx2 hwf h
    rw [runIdx] at h
    cases hs : stepIdx idx op with
    | none => rw [hs] at h; cases h
    | some idx3 => rw [hs] at h; exact ih (stepIdx_wf hwf hs) h

theorem freq_insert {idx : FreqIdx K} {k : K} (hwf : WFIdx idx)
    (hfresh : k ∉ iterKeys idx) :
    freqOf (idxInsert idx k) k = some 1 ∧
    ∀ k2, k2 ≠ k → freqOf (idxInsert idx k) k2 = freqOf idx k2 := by
  obtain ⟨hwf2, hp⟩ := idxInsert_spec idx k hwf hfresh
  have h1 := freqOf_of_perm hwf2 hp
  exact ⟨h1.1, fun k2 h => h1.2 k2 h⟩

theorem freq_increment {idx idx2 : FreqIdx K} {k : K} (hwf : WFIdx idx)
    (h : idxIncrement idx k = some idx2) :
    ∃ f, freqOf idx k = some f ∧ freqOf idx2 k = some (f + 1) ∧
      ∀ k2, k2 ≠ k → freqOf idx2 k2 = freqOf idx k2 := by
  obtain ⟨idx3, f, hinc, hwf2, _, _, rkf, hp1, hp2⟩ :=
    idxIncrement_spec hwf (idxIncrement_mem h)
  rw [h] at hinc
  cases hinc
  have h1 := freqOf_of_perm hwf hp1
  have h2 := freqOf_of_perm hwf2 hp2
  exact ⟨f, h1.1, h2.1, fun k2 hk2 => (h2.2 k2 hk2).trans (h1.2 k2 hk2).symm⟩

theorem freq_delete {idx idx2 : FreqIdx K} {k : K} (hwf : WFIdx idx)
    (h : idxDelete idx k = some idx2) :
    ∃ f, freqOf idx k = some f ∧ freqOf idx2 k = none ∧
      ∀ k2, k2 ≠ k → freqOf idx2 k2 = freqOf idx k2 := by
  obtain ⟨idx3, f, hdel, hwf2, _, hp⟩ := idxDelete_spec hwf (idxDelete_mem h)
  rw [h] at hdel
  cases hdel
  have h1 := freqOf_of_perm hwf hp
  have e1 : (iterKeys idx).Perm (k :: iterKeys idx2) := by
    rw [iterKeys_eq_map_keyFreqs, iterKeys_eq_map_keyFreqs]
    simpa using hp.map Prod.fst
  refine ⟨f, h1.1, ?_, fun k2 hk2 => (h1.2 k2 hk2).symm⟩
  have hnd2 := (e1.nodup_iff).mp hwf.2.2.2
  rw [freqOf, lookupKV_eq_none_iff, ← iterKeys_eq_map_keyFreqs]
  exact (List.nodup_cons.mp hnd2).1

end IdxRuns

end BotoCache

namespace BotoCache

section CacheLemmas3

variable {K V : Type} [DecidableEq K]

/-- A successful `__setitem__` on an LFU cache preserves the joint
invariant, and either it was the `max_size == 0` silent no-op or the new
key is afterwards stored with value `v`. -/
theorem lfuSetItem_sync {s t : LFUCache K V} {k : K} {v : V} (hs : SyncLFU s)
    (h : lfuSetItem s k v = .ok t) :
    SyncLFU t ∧ ((s.maxSize = 0 ∧ t = s) ∨ lookupKV t.cache k = some v) := by
  rw [lfuSetItem] at h
  by_cases hdup : (lookupKV s.cache k).isSome
  · rw [if_pos hdup] at h
    cases h
  · rw [if_neg hdup] at h
    have hfresh : k ∉ s.cache.map Prod.fst := by
      rw [← lookupKV_isSome_iff]
      exact hdup
    by_cases h0 : s.maxSize = 0
    · rw [if_pos h0] at h
      injection h with h
      subst h
      exact ⟨hs, Or.inl ⟨h0, rfl⟩⟩
    · rw [if_neg h0] at h
      by_cases hcap : s.cache.length ≥ s.maxSize
      · rw [if_pos hcap] at h
        have hne : s.cache ≠ [] := by
          have hpos := Nat.pos_of_ne_zero h0
          intro hnil
          rw [hnil] at hcap
          simp at hcap
          omega
        obtain ⟨ek, f, idx2, hpop0, hmem, hs2, _, _, _⟩ := sync_pop hs hne
        rw [hpop0] at h
        have hsome : (lookupKV s.cache ek).isSome := lookupKV_isSome_iff.mpr hmem
        have h2 : (if (lookupKV s.cache ek).isSome then
            Except.ok (⟨s.maxSize, eraseKV s.cache ek ++ [(k, v)],
              idxInsert idx2 k⟩ : LFUCache K V)
            else Except.error Err.keyErr) = Except.ok t := h
        rw [if_pos hsome] at h2
        injection h2 with h2
        subst h2
        have hkfresh2 : k ∉ (eraseKV s.cache ek).map Prod.fst := by
          rw [eraseKV_map_fst]
          intro hc
          exact hfresh ((List.eraseP_sublist _).subset hc)
        obtain ⟨hsi, _, _⟩ := sync_insert
          (s := { s with cache := eraseKV s.cache ek, idx := idx2 }) v hs2 hkfresh2
        exact ⟨hsi, Or.inr (lookupKV_concat_self v hkfresh2)⟩
      · rw [if_neg hcap] at h
        injection h with h
        subst h
        obtain ⟨hsi, _, _⟩ := sync_insert v hs hfresh
        exact ⟨hsi, Or.inr (lookupKV_concat_self v hfresh)⟩

end CacheLemmas3

end BotoCache

namespace BotoCache

section Claims1

/-- C10: for both cache flavours (`_BaseLRUCache.get` / `_BaseLFUCache.get`
and the two `__contains__` methods), `get(key, default)` on an absent key
returns the default and leaves the entire cache state unchanged (no
recency move, no frequency increment, no eviction, contents identical),
and a membership test never changes the cache state, hit or miss. -/
theorem spec_C10 : ∀ (K V : Type) (inst : DecidableEq K)
    (sL : LRUCache K V) (sF : LFUCache K V) (k : K) (d : Option V),
    (lookupKV sL.cache k = none → lruGetD sL k d = (d, sL)) ∧
    (lookupKV sF.cache k = none → lfuGetD sF k d = .ok (d, sF)) ∧
    lruContains sL k = ((lookupKV sL.cache k).isSome, sL) ∧
    lfuContains sF k = ((lookupKV sF.cache k).isSome, sF) := by
  intro K V inst sL sF k d
  refine ⟨?_, ?_, rfl, rfl⟩
  · intro h
    simp only [lruGetD, h]
  · intro h
    simp only [lfuGetD, h]

theorem spec_C10_w :
    lookupKV ((⟨2, [(1, 10)]⟩ : LRUCache Nat Nat)).cache 2 = none ∧
    lruGetD (⟨2, [(1, 10)]⟩ : LRUCache Nat Nat) 2 (some 5) =
      (some 5, ⟨2, [(1, 10)]⟩) ∧
    lfuGetD (⟨2, [(1, 10)], [⟨1, [1]⟩]⟩ : LFUCache Nat Nat) 2 (some 5) =
      .ok (some 5, ⟨2, [(1, 10)], [⟨1, [1]⟩]⟩) ∧
    lruContains (⟨2, [(1, 10)]⟩ : LRUCache Nat Nat) 1 =
      (true, ⟨2, [(1, 10)]⟩) := by
  have h := spec_C10 Nat Nat inferInstance ⟨2, [(1, 10)]⟩
    ⟨2, [(1, 10)], [⟨1, [1]⟩]⟩ 2 (some 5)
  have h2 := spec_C10 Nat Nat inferInstance ⟨2, [(1, 10)]⟩
    ⟨2, [(1, 10)], [⟨1, [1]⟩]⟩ 1 (some 5)
  exact ⟨rfl, h.1 rfl, h.2.1 rfl, h2.2.2.1⟩

/-- C6: when `max_size` is 0, a `set` of a valid fresh entry behaves
asymmetrically in the two policies: the LRU cache accepts it — the entry
is appended and the over-capacity check immediately pops one entry from
the LRU end, so an empty cache stays empty and no error is raised — while
the LFU `__setitem__` returns before touching anything (`if max_size == 0:
return`), leaving the whole state (dict and frequency index) unchanged,
also with no error. -/
theorem spec_C6 : ∀ (K V : Type) (inst : DecidableEq K)
    (sL : LRUCache K V) (sF : LFUCache K V) (k : K) (v : V),
    (sL.maxSize = 0 → lookupKV sL.cache k = none →
      lruSetItem sL k v =
        .ok { sL with cache := (sL.cache ++ [(k, v)]).drop 1 } ∧
      (sL.cache = [] → lruSetItem sL k v = .ok sL)) ∧
    (sF.maxSize = 0 → lookupKV sF.cache k = none →
      lfuSetItem sF k v = .ok sF) := by
  intro K V inst sL sF k v
  constructor
  · intro h0 hmiss
    have hif : (sL.cache ++ [(k, v)]).length > sL.maxSize := by
      rw [h0]
      simp
    constructor
    · simp only [lruSetItem, hmiss, Option.isSome_none, Bool.false_eq_true,
        if_false, if_pos hif]
    · intro hce
      obtain ⟨m, c⟩ := sL
      simp only at h0 hce hif hmiss
      subst h0
      subst hce
      simp only [lruSetItem, hmiss, Option.isSome_none, Bool.false_eq_true,
        if_false, if_pos hif]
      rfl
  · intro h0 hmiss
    simp only [lfuSetItem, hmiss, Option.isSome_none, Bool.false_eq_true,
      if_false, if_pos h0]

theorem spec_C6_w :
    (⟨0, []⟩ : LRUCache Nat Nat).maxSize = 0 ∧
    lookupKV ((⟨0, []⟩ : LRUCache Nat Nat)).cache 1 = none ∧
    lruSetItem (⟨0, []⟩ : LRUCache Nat Nat) 1 10 = .ok ⟨0, []⟩ ∧
    lfuSetItem (⟨0, [], []⟩ : LFUCache Nat Nat) 1 10 = .ok ⟨0, [], []⟩ := by
  have h := spec_C6 Nat Nat inferInstance ⟨0, []⟩ ⟨0, [], []⟩ 1 10
  exact ⟨rfl, rfl, (h.1 rfl rfl).2 rfl, h.2 rfl rfl⟩

/-- C5: in the LRU cache every successful touch — indexed get or
`get(...)` hit — moves the touched key to the most-recently-used end of
the ordering (the last position), losing no entry; inserting a fresh key
that pushes occupancy over `max_size` evicts from the head, the least
recently used end.  In particular, at capacity 2: insert 1, insert 2,
touch 1, insert 3 — key 2 is evicted while 1 and 3 remain. -/
theorem spec_C5 : ∀ (K V : Type) (inst : DecidableEq K)
    (s : LRUCache K V) (k : K) (v : V) (d : Option V),
    (lookupKV s.cache k = some v →
      lruGetItem s k = .ok (v, { s with cache := moveToEnd s.cache k }) ∧
      lruGetD s k d = (some v, { s with cache := moveToEnd s.cache k }) ∧
      (moveToEnd s.cache k).getLast? = some (k, v) ∧
      ((moveToEnd s.cache k).map Prod.fst).Perm (s.cache.map Prod.fst)) ∧
    (lookupKV s.cache k = none → s.cache.length = s.maxSize →
      0 < s.maxSize →
      lruSetItem s k v = .ok { s with cache := s.cache.drop 1 ++ [(k, v)] }) ∧
    (∃ s1 s2 s3 s4 : LRUCache Nat Nat,
      lruSetItem ⟨2, []⟩ 1 10 = .ok s1 ∧ lruSetItem s1 2 20 = .ok s2 ∧
      lruGetItem s2 1 = .ok (10, s3) ∧ lruSetItem s3 3 30 = .ok s4 ∧
      s4.cache.map Prod.fst = [1, 3]) := by
  intro K V inst s k v d
  refine ⟨?_, ?_, ?_⟩
  · intro h
    refine ⟨by simp only [lruGetItem, h], by simp only [lruGetD, h],
      moveToEnd_getLast h, moveToEnd_perm h⟩
  · intro hmiss hlen hpos
    have hif : (s.cache ++ [(k, v)]).length > s.maxSize := by
      simp [hlen]
    simp only [lruSetItem, hmiss, Option.isSome_none, Bool.false_eq_true,
      if_false, if_pos hif]
    rw [List.drop_append_of_le_length (by omega)]
  · exact ⟨_, _, _, _, rfl, rfl, rfl, rfl, rfl⟩

theorem spec_C5_w :
    lookupKV ((⟨2, [(1, 10), (2, 20)]⟩ : LRUCache Nat Nat)).cache 1 =
      some 10 ∧
    lruGetItem (⟨2, [(1, 10), (2, 20)]⟩ : LRUCache Nat Nat) 1 =
      .ok (10, ⟨2, [(2, 20), (1, 10)]⟩) ∧
    lookupKV ((⟨2, [(1, 10), (2, 20)]⟩ : LRUCache Nat Nat)).cache 3 = none ∧
    lruSetItem (⟨2, [(1, 10), (2, 20)]⟩ : LRUCache Nat Nat) 3 30 =
      .ok ⟨2, [(2, 20), (3, 30)]⟩ := by
  have h := spec_C5 Nat Nat inferInstance ⟨2, [(1, 10), (2, 20)]⟩ 1 10 none
  have h2 := spec_C5 Nat Nat inferInstance ⟨2, [(1, 10), (2, 20)]⟩ 3 30 none
  exact ⟨rfl, (h.1 rfl).1, rfl, h2.2.1 rfl rfl (by decide)⟩

end Claims1

end BotoCache

namespace BotoCache

section Claims2

/-- C4: in every LFU cache state satisfying the joint invariant, the
eviction victim chosen by `popitem` and by `__setitem__`-at-capacity is
the key `pop_least_frequent` returns: the first key in `iter_keys` order,
i.e. a key of minimal access frequency, and among the keys of that minimal
frequency the one least recently touched at that frequency (head of the
head node's `OrderedDict`), not the oldest arrival overall.  Every
successful touch (indexed get, or `get` hit) increments exactly the
touched key's frequency by one.  In particular: insert 1 and 2 at capacity
2, touch 1 twice, then insert 3 — key 2 is evicted while 1 and 3 remain. -/
theorem spec_C4 : ∀ (K V : Type) (inst : DecidableEq K)
    (s : LFUCache K V) (k : K) (v : V) (d : Option V),
    (SyncLFU s → s.cache ≠ [] →
      ∃ ek f idx2, idxPop s.idx = some (ek, idx2) ∧
        iterKeys s.idx = ek :: iterKeys idx2 ∧
        freqOf s.idx ek = some f ∧
        (∀ e ∈ keyFreqs s.idx, f ≤ e.2) ∧
        ∃ ev, lfuPopitem s =
          .ok ((ek, ev), { s with cache := eraseKV s.cache ek, idx := idx2 })) ∧
    (SyncLFU s → lookupKV s.cache k = none → 0 < s.maxSize →
      s.maxSize ≤ s.cache.length →
      ∃ ek idx2, idxPop s.idx = some (ek, idx2) ∧
        lfuSetItem s k v =
          .ok { s with cache := eraseKV s.cache ek ++ [(k, v)],
                       idx := idxInsert idx2 k }) ∧
    (SyncLFU s → lookupKV s.cache k = some v →
      ∃ f idx2, lfuGetItem s k = .ok (v, { s with idx := idx2 }) ∧
        lfuGetD s k d = .ok (some v, { s with idx := idx2 }) ∧
        freqOf s.idx k = some f ∧ freqOf idx2 k = some (f + 1) ∧
        (∀ k2, k2 ≠ k → freqOf idx2 k2 = freqOf s.idx k2)) ∧
    (∃ s1 s2 s3 s4 s5 : LFUCache Nat Nat,
      lfuSetItem ⟨2, [], []⟩ 1 10 = .ok s1 ∧ lfuSetItem s1 2 20 = .ok s2 ∧
      lfuGetItem s2 1 = .ok (10, s3) ∧ lfuGetItem s3 1 = .ok (10, s4) ∧
      lfuSetItem s4 3 30 = .ok s5 ∧ s5.cache.map Prod.fst = [1, 3]) := by
  intro K V inst s k v d
  refine ⟨?_, ?_, ?_, ?_⟩
  · intro hs hne
    obtain ⟨ek, f, idx2, hpop, hmem, hs2, hfreq, hmin, hiter⟩ := sync_pop hs hne
    obtain ⟨ev, hv⟩ := Option.isSome_iff_exists.mp (lookupKV_isSome_iff.mpr hmem)
    refine ⟨ek, f, idx2, hpop, hiter, hfreq, hmin, ev, ?_⟩
    have hie : ¬s.cache.isEmpty = true := by
      simpa [List.isEmpty_iff] using hne
    simp only [lfuPopitem, if_neg hie, hpop, hv]
  · intro hs hmiss hpos hcap
    have hne : s.cache ≠ [] := by
      intro hnil
      rw [hnil] at hcap
      simp at hcap
      omega
    obtain ⟨ek, f, idx2, hpop, hmem, hs2, hfreq, hmin, hiter⟩ := sync_pop hs hne
    have hsome : (lookupKV s.cache ek).isSome := lookupKV_isSome_iff.mpr hmem
    refine ⟨ek, idx2, hpop, ?_⟩
    simp only [lfuSetItem, hmiss, Option.isSome_none, Bool.false_eq_true,
      if_false, if_neg (by omega : ¬s.maxSize = 0),
      if_pos (by omega : s.cache.length ≥ s.maxSize), hpop, if_pos hsome]
  · intro hs hv
    have hmem : k ∈ s.cache.map Prod.fst :=
      lookupKV_isSome_iff.mp (by rw [hv]; rfl)
    obtain ⟨idx2, f, hinc, hs2, hf1, hf2, hframe⟩ := sync_increment hs hmem
    refine ⟨f, idx2, ?_, ?_, hf1, hf2, hframe⟩
    · simp only [lfuGetItem, hv, hinc]
    · simp only [lfuGetD, hv, hinc]
  · exact ⟨_, _, _, _, _, rfl, rfl, rfl, rfl, rfl, rfl⟩

theorem spec_C4_w :
    SyncLFU (⟨2, [(1, 10), (2, 20)], [⟨1, [2]⟩, ⟨3, [1]⟩]⟩ : LFUCache Nat Nat) ∧
    (∃ ek f idx2,
      idxPop ([⟨1, [2]⟩, ⟨3, [1]⟩] : FreqIdx Nat) = some (ek, idx2) ∧
      iterKeys ([⟨1, [2]⟩, ⟨3, [1]⟩] : FreqIdx Nat) = ek :: iterKeys idx2 ∧
      freqOf ([⟨1, [2]⟩, ⟨3, [1]⟩] : FreqIdx Nat) ek = some f ∧
      (∀ e ∈ keyFreqs ([⟨1, [2]⟩, ⟨3, [1]⟩] : FreqIdx Nat), f ≤ e.2) ∧
      ∃ ev, lfuPopitem (⟨2, [(1, 10), (2, 20)], [⟨1, [2]⟩, ⟨3, [1]⟩]⟩ :
          LFUCache Nat Nat) =
        .ok ((ek, ev), { maxSize := 2, cache := eraseKV [(1, 10), (2, 20)] ek,
                         idx := idx2 })) := by
  have hsync : SyncLFU (⟨2, [(1, 10), (2, 20)], [⟨1, [2]⟩, ⟨3, [1]⟩]⟩ :
      LFUCache Nat Nat) := by
    refine ⟨⟨?_, ?_, ?_, ?_⟩, ?_, ?_⟩ <;> decide
  exact ⟨hsync,
    (spec_C4 Nat Nat inferInstance ⟨2, [(1, 10), (2, 20)], [⟨1, [2]⟩, ⟨3, [1]⟩]⟩
      1 0 none).1 hsync (by decide)⟩

end Claims2

end BotoCache

namespace BotoCache

section Claims3

variable {K V : Type} [DecidableEq K]

/-- After a successful LRU `set` on a cache with `max_size` at least 1,
the new key is present with its value (the single eviction the setter may
perform removes the old head, never the entry just appended). -/
theorem lookupKV_setItem_self {s s1 : LRUCache K V} {k : K} {x : V}
    (hpos : 1 ≤ s.maxSize) (h : lruSetItem s k x = .ok s1) :
    lookupKV s1.cache k = some x := by
  rw [lruSetItem] at h
  by_cases hdup : (lookupKV s.cache k).isSome
  · rw [if_pos hdup] at h
    cases h
  · rw [if_neg hdup] at h
    injection h with h
    subst h
    have hfresh : k ∉ s.cache.map Prod.fst := by
      rw [← lookupKV_isSome_iff]
      exact hdup
    by_cases hif : (s.cache ++ [(k, x)]).length > s.maxSize
    · simp only [if_pos hif]
      have hlen : 1 ≤ s.cache.length := by
        simp only [List.length_append, List.length_cons, List.length_nil] at hif
        omega
      rw [List.drop_append_of_le_length hlen]
      have hfresh2 : k ∉ (s.cache.drop 1).map Prod.fst := by
        intro hc
        apply hfresh
        obtain ⟨e, he, hek⟩ := List.mem_map.mp hc
        exact List.mem_map.mpr ⟨e, (List.drop_sublist 1 s.cache).subset he, hek⟩
      exact lookupKV_concat_self x hfresh2
    · simp only [if_neg hif]
      exact lookupKV_concat_self x hfresh

end Claims3

end BotoCache

namespace BotoCache

section Claims4

/-- C9 (amended: the duplicate-key round trip requires `max_size ≥ 1` —
at `max_size = 0` a first `set` succeeds while storing nothing, so a
second `set` of the same key succeeds as well instead of raising): for
either cache with `max_size ≥ 1`, after `set(k, x)` succeeds, `k` is
stored with value `x`, a second `set(k, y)` raises the duplicate-key
error having mutated nothing (the duplicate test precedes all mutation),
and `get(k)` still returns `x`; a `set` of any already-present key raises
the duplicate-key error unconditionally. -/
theorem spec_C9 : ∀ (K V : Type) (inst : DecidableEq K)
    (sL s1 : LRUCache K V) (sF t1 : LFUCache K V) (k : K) (x y : V),
    (1 ≤ sL.maxSize → lruSetItem sL k x = .ok s1 →
      lookupKV s1.cache k = some x ∧
      lruSetItem s1 k y = .error Err.dup ∧
      lruGetItem s1 k = .ok (x, { s1 with cache := moveToEnd s1.cache k })) ∧
    (SyncLFU sF → 1 ≤ sF.maxSize → lfuSetItem sF k x = .ok t1 →
      lookupKV t1.cache k = some x ∧
      lfuSetItem t1 k y = .error Err.dup ∧
      ∃ idx2, lfuGetItem t1 k = .ok (x, { t1 with idx := idx2 })) ∧
    ((lookupKV sL.cache k).isSome → lruSetItem sL k y = .error Err.dup) ∧
    ((lookupKV sF.cache k).isSome → lfuSetItem sF k y = .error Err.dup) := by
  intro K V inst sL s1 sF t1 k x y
  refine ⟨?_, ?_, ?_, ?_⟩
  · intro hpos hset
    have hl := lookupKV_setItem_self hpos hset
    have hsome : (lookupKV s1.cache k).isSome := by rw [hl]; rfl
    refine ⟨hl, ?_, ?_⟩
    · rw [lruSetItem, if_pos hsome]
    · simp only [lruGetItem, hl]
  · intro hs hpos hset
    obtain ⟨hsync1, hdisj⟩ := lfuSetItem_sync hs hset
    rcases hdisj with ⟨h0, _⟩ | hl
    · omega
    · have hmem : k ∈ t1.cache.map Prod.fst :=
        lookupKV_isSome_iff.mp (by rw [hl]; rfl)
      obtain ⟨idx2, f, hinc, _, _, _, _⟩ := sync_increment hsync1 hmem
      have hsome : (lookupKV t1.cache k).isSome := by rw [hl]; rfl
      refine ⟨hl, ?_, idx2, ?_⟩
      · rw [lfuSetItem, if_pos hsome]
      · simp only [lfuGetItem, hl, hinc]
  · intro hsome
    rw [lruSetItem, if_pos hsome]
  · intro hsome
    rw [lfuSetItem, if_pos hsome]

/-- The unamended C9 is false at `max_size = 0`: on an LRU cache of
capacity 0, `set(1, 10)` succeeds (insert, then immediate eviction), yet
a second `set(1, 20)` succeeds as well — it does not raise the
duplicate-key error, because nothing was stored. -/
theorem spec_C9_cex :
    lruSetItem (⟨0, []⟩ : LRUCache Nat Nat) 1 10 = .ok ⟨0, []⟩ ∧
    lruSetItem (⟨0, []⟩ : LRUCache Nat Nat) 1 20 = .ok ⟨0, []⟩ ∧
    (Except.ok (⟨0, []⟩ : LRUCache Nat Nat) ≠ .error Err.dup) :=
  ⟨rfl, rfl, fun h => Except.noConfusion h⟩

theorem spec_C9_w :
    lruSetItem (⟨1, []⟩ : LRUCache Nat Nat) 1 10 = .ok ⟨1, [(1, 10)]⟩ ∧
    lruSetItem (⟨1, [(1, 10)]⟩ : LRUCache Nat Nat) 1 20 = .error Err.dup ∧
    lfuSetItem (⟨1, [], []⟩ : LFUCache Nat Nat) 1 10 =
      .ok ⟨1, [(1, 10)], [⟨1, [1]⟩]⟩ ∧
    lfuSetItem (⟨1, [(1, 10)], [⟨1, [1]⟩]⟩ : LFUCache Nat Nat) 1 20 =
      .error Err.dup := by
  have h := spec_C9 Nat Nat inferInstance ⟨1, []⟩ ⟨1, [(1, 10)]⟩ ⟨1, [], []⟩
    ⟨1, [(1, 10)], [⟨1, [1]⟩]⟩ 1 10 20
  have hsync : SyncLFU (⟨1, [], []⟩ : LFUCache Nat Nat) := by
    refine ⟨⟨?_, ?_, ?_, ?_⟩, ?_, ?_⟩ <;> decide
  exact ⟨rfl, (h.1 (by decide) rfl).2.1, rfl, (h.2.1 hsync (by decide) rfl).2.1⟩

end Claims4

end BotoCache

namespace BotoCache

section Claims5

/-- C7: for both caches, every mutating operation that completes leaves
occupancy at most `max_size` (assuming it held before, as it does in every
reachable state since construction validates `max_size` and the cache
starts empty); assigning `max_size` stores the absolute value and evicts
under the policy ranking until occupancy fits, so occupancy afterwards is
`min |value| n`, and the survivors are exactly the top entries under the
ranking — the tail of the recency order for LRU, the tail of the
`iter_keys` frequency order for LFU. -/
theorem spec_C7 : ∀ (K V : Type) (inst : DecidableEq K)
    (sL : LRUCache K V) (sF : LFUCache K V) (k : K) (v : V) (d : Int),
    (sL.cache.length ≤ sL.maxSize →
      (∀ s2, lruSetItem sL k v = .ok s2 → s2.cache.length ≤ s2.maxSize) ∧
      (∀ s2, lruDelItem sL k = .ok s2 → s2.cache.length ≤ s2.maxSize) ∧
      (∀ r s2, lruPop sL k = .ok (r, s2) → s2.cache.length ≤ s2.maxSize) ∧
      (∀ e s2, lruPopitem sL = .ok (e, s2) → s2.cache.length ≤ s2.maxSize) ∧
      (lruClear sL).cache.length ≤ (lruClear sL).maxSize) ∧
    ((lruSetMax sL d).maxSize = d.natAbs ∧
      (lruSetMax sL d).cache.length ≤ (lruSetMax sL d).maxSize ∧
      (lruSetMax sL d).cache = sL.cache.drop (sL.cache.length - d.natAbs) ∧
      (d.natAbs ≤ sL.cache.length →
        (lruSetMax sL d).cache.length = d.natAbs)) ∧
    (sF.cache.length ≤ sF.maxSize →
      (∀ t2, lfuSetItem sF k v = .ok t2 → t2.cache.length ≤ t2.maxSize) ∧
      (∀ t2, lfuDelItem sF k = .ok t2 → t2.cache.length ≤ t2.maxSize) ∧
      (∀ r t2, lfuPop sF k = .ok (r, t2) → t2.cache.length ≤ t2.maxSize) ∧
      (∀ e t2, lfuPopitem sF = .ok (e, t2) → t2.cache.length ≤ t2.maxSize) ∧
      (lfuClear sF).cache.length ≤ (lfuClear sF).maxSize) ∧
    (SyncLFU sF →
      ∃ t2, lfuSetMax sF d = .ok t2 ∧ t2.maxSize = d.natAbs ∧
        t2.cache.length ≤ t2.maxSize ∧
        t2.cache.length = min d.natAbs sF.cache.length ∧
        iterKeys t2.idx = (iterKeys sF.idx).drop (sF.cache.length - d.natAbs) ∧
        SyncLFU t2) := by
  intro K V inst sL sF k v d
  refine ⟨?_, ?_, ?_, ?_⟩
  · intro hinv
    refine ⟨?_, ?_, ?_, ?_, ?_⟩
    · intro s2 h
      rw [lruSetItem] at h
      by_cases hdup : (lookupKV sL.cache k).isSome
      · rw [if_pos hdup] at h
        cases h
      · rw [if_neg hdup] at h
        injection h with h
        subst h
        by_cases hif : (sL.cache ++ [(k, v)]).length > sL.maxSize
        · rw [if_pos hif]
          simp only [List.length_drop, List.length_append,
            List.length_cons, List.length_nil]
          omega
        · rw [if_neg hif]
          simp only [List.length_append, List.length_cons, List.length_nil] at hif ⊢
          omega
    · intro s2 h
      rw [lruDelItem] at h
      by_cases hdup : (lookupKV sL.cache k).isSome
      · rw [if_pos hdup] at h
        injection h with h
        subst h
        exact le_trans ((List.eraseP_sublist _).length_le) hinv
      · rw [if_neg hdup] at h
        cases h
    · intro r s2 h
      rw [lruPop] at h
      cases hl : lookupKV sL.cache k with
      | none => rw [hl] at h; cases h
      | some v2 =>
        rw [hl] at h
        have h2 : Except.ok (ε := Err) (v2,
            { sL with cache := eraseKV sL.cache k }) = Except.ok (r, s2) := h
        injection h2 with h2
        injection h2 with ha hb
        subst hb
        exact le_trans ((List.eraseP_sublist _).length_le) hinv
    · intro e s2 h
      rw [lruPopitem] at h
      cases hc : sL.cache with
      | nil => rw [hc] at h; cases h
      | cons e0 rest =>
        rw [hc] at h
        have h2 : Except.ok (ε := Err) (e0, { sL with cache := rest }) =
            Except.ok (e, s2) := h
        injection h2 with h2
        injection h2 with ha hb
        subst hb
        rw [hc] at hinv
        simp only [List.length_cons] at hinv
        simp only
        omega
    · simp [lruClear]
  · refine ⟨rfl, ?_, ?_, ?_⟩
    · simp only [lruSetMax, length_dropToFit]
      omega
    · simp only [lruSetMax, dropToFit_eq_drop]
    · intro hle
      simp only [lruSetMax, length_dropToFit]
      omega
  · intro hinv
    refine ⟨?_, ?_, ?_, ?_, ?_⟩
    · intro t2 h
      rw [lfuSetItem] at h
      by_cases hdup : (lookupKV sF.cache k).isSome
      · rw [if_pos hdup] at h
        cases h
      · rw [if_neg hdup] at h
        by_cases h0 : sF.maxSize = 0
        · rw [if_pos h0] at h
          injection h with h
          subst h
          exact hinv
        · rw [if_neg h0] at h
          by_cases hcap : sF.cache.length ≥ sF.maxSize
          · rw [if_pos hcap] at h
            cases hpop : idxPop sF.idx with
            | none => rw [hpop] at h; cases h
            | some p =>
              rw [hpop] at h
              obtain ⟨ek, idx2⟩ := p
              have h2 : (if (lookupKV sF.cache ek).isSome then
                  Except.ok (⟨sF.maxSize, eraseKV sF.cache ek ++ [(k, v)],
                    idxInsert idx2 k⟩ : LFUCache K V)
                  else Except.error Err.keyErr) = Except.ok t2 := h
              by_cases hsome : (lookupKV sF.cache ek).isSome
              · rw [if_pos hsome] at h2
                injection h2 with h2
                subst h2
                have hmem : ek ∈ sF.cache.map Prod.fst :=
                  lookupKV_isSome_iff.mp hsome
                have hne : sF.cache.length ≠ 0 := by
                  intro hc
                  rw [List.length_eq_zero] at hc
                  rw [hc] at hmem
                  cases hmem
                simp only [List.length_append, List.length_cons,
                  List.length_nil, length_eraseKV_of_mem hmem]
                omega
              · rw [if_neg hsome] at h2
                cases h2
          · rw [if_neg hcap] at h
            injection h with h
            subst h
            simp only [List.length_append, List.length_cons, List.length_nil]
            omega
    · intro t2 h
      rw [lfuDelItem] at h
      by_cases hdup : (lookupKV sF.cache k).isSome
      · rw [if_pos hdup] at h
        cases hdel : idxDelete sF.idx k with
        | none => rw [hdel] at h; cases h
        | some idx2 =>
          rw [hdel] at h
          have h2 : Except.ok (ε := Err) (⟨sF.maxSize, eraseKV sF.cache k,
              idx2⟩ : LFUCache K V) = Except.ok t2 := h
          injection h2 with h2
          subst h2
          exact le_trans ((List.eraseP_sublist _).length_le) hinv
      · rw [if_neg hdup] at h
        cases h
    · intro r t2 h
      rw [lfuPop] at h
      cases hl : lookupKV sF.cache k with
      | none => rw [hl] at h; cases h
      | some v2 =>
        rw [hl] at h
        cases hdel : idxDelete sF.idx k with
        | none => rw [hdel] at h; cases h
        | some idx2 =>
          rw [hdel] at h
          have h2 : Except.ok (ε := Err) ((v2, ⟨sF.maxSize, eraseKV sF.cache k,
              idx2⟩) : V × LFUCache K V) = Except.ok (r, t2) := h
          injection h2 with h2
          injection h2 with ha hb
          subst hb
          exact le_trans ((List.eraseP_sublist _).length_le) hinv
    · intro e t2 h
      rw [lfuPopitem] at h
      by_cases hie : sF.cache.isEmpty
      · rw [if_pos hie] at h
        cases h
      · rw [if_neg hie] at h
        cases hpop : idxPop sF.idx with
        | none => rw [hpop] at h; cases h
        | some p =>
          rw [hpop] at h
          obtain ⟨ek, idx2⟩ := p
          have h2 : (match lookupKV sF.cache ek with
              | some ev => Except.ok ((ek, ev), (⟨sF.maxSize,
                  eraseKV sF.cache ek, idx2⟩ : LFUCache K V))
              | none => Except.error Err.keyErr) = Except.ok (e, t2) := h
          cases hl : lookupKV sF.cache ek with
          | none =>
            rw [hl] at h2
            have h3 : (Except.error Err.keyErr :
                Except Err ((K × V) × LFUCache K V)) = Except.ok (e, t2) := h2
            cases h3
          | some ev =>
            rw [hl] at h2
            have h3 : Except.ok (ε := Err) (((ek, ev), ⟨sF.maxSize,
                eraseKV sF.cache ek, idx2⟩) : (K × V) × LFUCache K V) =
              Except.ok (e, t2) := h2
            injection h3 with h3
            injection h3 with ha hb
            subst hb
            exact le_trans ((List.eraseP_sublist _).length_le) hinv
    · simp [lfuClear]
  · intro hs
    obtain ⟨hwf, hperm, hnd⟩ := hs
    obtain ⟨c2, idx2, hrun, hwf2, hperm2, hnd2, hlen2, hiter2⟩ :=
      lfuShrink_spec d.natAbs sF.cache.length sF.cache sF.idx rfl hwf hperm hnd
    refine ⟨⟨d.natAbs, c2, idx2⟩, ?_, rfl, ?_, hlen2, hiter2, hwf2, hperm2, hnd2⟩
    · rw [lfuSetMax, hrun]
      rfl
    · show c2.length ≤ d.natAbs
      omega

end Claims5

end BotoCache

namespace BotoCache

section Claims6

theorem spec_C7_w :
    SyncLFU (⟨2, [(1, 10)], [⟨1, [1]⟩]⟩ : LFUCache Nat Nat) ∧
    (lruSetMax (⟨2, [(1, 10), (2, 20)]⟩ : LRUCache Nat Nat) (-1)).cache =
      [(1, 10), (2, 20)].drop (2 - 1) ∧
    ∃ t2, lfuSetMax (⟨2, [(1, 10)], [⟨1, [1]⟩]⟩ : LFUCache Nat Nat) (-1) =
      .ok t2 ∧ SyncLFU t2 := by
  have hsync : SyncLFU (⟨2, [(1, 10)], [⟨1, [1]⟩]⟩ : LFUCache Nat Nat) := by
    refine ⟨⟨?_, ?_, ?_, ?_⟩, ?_, ?_⟩ <;> decide
  have h := spec_C7 Nat Nat inferInstance ⟨2, [(1, 10), (2, 20)]⟩
    ⟨2, [(1, 10)], [⟨1, [1]⟩]⟩ 2 20 (-1)
  obtain ⟨t2, h1, _, _, _, _, h2⟩ := h.2.2.2 hsync
  exact ⟨hsync, h.2.1.2.2.1, t2, h1, h2⟩

/-- C8: across every sequence of `insert` (of a fresh key), `increment`,
`delete` and `pop_least_frequent` operations, the frequency index keeps
its invariants: no linked node has an empty key set, node frequencies are
strictly increasing from head to tail, and every live key sits in exactly
one node; moreover that node's frequency equals the key's access count —
`insert` records the key at frequency 1, a successful `increment` moves
exactly the touched key from recorded frequency `f` to `f + 1`, a
successful `delete` unregisters exactly the deleted key, and every other
key's recorded frequency is untouched by each operation. -/
theorem spec_C8 : ∀ (K : Type) (inst : DecidableEq K)
    (idx idx2 : FreqIdx K) (ops : List (IdxOp K)) (k k2 : K),
    (WFIdx idx → runIdx idx ops = some idx2 → WFIdx idx2) ∧
    (runIdx [] ops = some idx2 →
      (∀ n ∈ idx2, n.keys ≠ []) ∧
      (idx2.map FreqNode.freq).Pairwise (· < ·) ∧
      (iterKeys idx2).Nodup) ∧
    (WFIdx idx → k ∉ iterKeys idx →
      freqOf (idxInsert idx k) k = some 1 ∧
      (k2 ≠ k → freqOf (idxInsert idx k) k2 = freqOf idx k2)) ∧
    (WFIdx idx → idxIncrement idx k = some idx2 →
      ∃ f, freqOf idx k = some f ∧ freqOf idx2 k = some (f + 1) ∧
        (k2 ≠ k → freqOf idx2 k2 = freqOf idx k2)) ∧
    (WFIdx idx → idxDelete idx k = some idx2 →
      ∃ f, freqOf idx k = some f ∧ freqOf idx2 k = none ∧
        (k2 ≠ k → freqOf idx2 k2 = freqOf idx k2)) := by
  intro K inst idx idx2 ops k k2
  refine ⟨runIdx_wf ops, ?_, ?_, ?_, ?_⟩
  · intro hrun
    obtain ⟨h1, h2, h3, h4⟩ := runIdx_wf ops WFIdx_nil hrun
    exact ⟨h1, h3, h4⟩
  · intro hwf hfresh
    obtain ⟨h1, h2⟩ := freq_insert hwf hfresh
    exact ⟨h1, fun hne => h2 k2 hne⟩
  · intro hwf hinc
    obtain ⟨f, h1, h2, h3⟩ := freq_increment hwf hinc
    exact ⟨f, h1, h2, fun hne => h3 k2 hne⟩
  · intro hwf hdel
    obtain ⟨f, h1, h2, h3⟩ := freq_delete hwf hdel
    exact ⟨f, h1, h2, fun hne => h3 k2 hne⟩

theorem spec_C8_w :
    runIdx ([] : FreqIdx Nat)
      [IdxOp.insOp 1, IdxOp.insOp 2, IdxOp.incOp 1, IdxOp.popOp] =
      some [⟨2, [1]⟩] ∧
    (∀ n ∈ ([⟨2, [1]⟩] : FreqIdx Nat), n.keys ≠ []) ∧
    (([⟨2, [1]⟩] : FreqIdx Nat).map FreqNode.freq).Pairwise (· < ·) ∧
    (iterKeys ([⟨2, [1]⟩] : FreqIdx Nat)).Nodup := by
  have h := (spec_C8 Nat inferInstance [] [⟨2, [1]⟩]
    [IdxOp.insOp 1, IdxOp.insOp 2, IdxOp.incOp 1, IdxOp.popOp] 1 2).2.1 rfl
  exact ⟨rfl, h.1, h.2.1, h.2.2⟩

end Claims6

end BotoCache

namespace BotoCache

section Claims7

theorem attach_map_fn {α β : Type} (l : List α) (f : α → β) :
    l.attach.map (fun x => f x.1) = l.map f := by
  rw [show (fun x : {x // x ∈ l} => f x.1) = f ∘ Subtype.val from rfl,
    ← List.map_map, List.attach_map_subtype_val]

/-- `pynorm` on a tuple maps `pynorm` over the elements. -/
theorem pynorm_vtuple (xs : List Value) :
    pynorm (.vtuple xs) = .vtuple (xs.map pynorm) := by
  simp only [pynorm]
  rw [attach_map_fn]

/-- The clear key `_create` derives from the signature `(**{name: v})` for
a keyword that is none of the specially handled parameter names and a
non-`None` value: the empty positional tuple paired with the single
`(name, v)` item. -/
theorem create_single_clearKey (ct : CacheType) (name : String) (v : Value)
    (h1 : (name == "service_name") = false)
    (h2 : (name == "eviction_policy") = false)
    (h3 : (name == "max_size") = false)
    (h4 : (name == "config") = false)
    (h5 : (v == Value.vnone) = false) :
    (create ct [] [(name, v)]).clearKey =
      .vtuple [.vtuple [], .vtuple [.vtuple [.vstr name, v]]] := by
  simp [create, getKw, eraseKw, setKw, sortEntries, List.insertionSort,
    popTrailingNones, entryTuple, h1, h2, h3, h4, h5, List.find?, List.eraseP,
    List.filter]

end Claims7

end BotoCache

namespace BotoCache

section Claims8

/-- C3: two cache keys compare equal exactly when they are of the same
key class and their unredacted canonical representations (`_key`, built by
`_create` after its normalization) are Python-equal; equality and hashing
read only the clear key, never the redacted `key`/`label`, so keys
differing only in redaction display data are equal with equal hashes,
while keys built from signatures differing only in a sensitive value are
unequal (redaction does not collapse them), and rebuilding a key from the
same signature yields an equal key. -/
theorem spec_C3 : ∀ (a b : CacheKeyData) (ct : CacheType) (name : String)
    (v1 v2 : Value),
    (keyEq a b = true ↔
      (a.cacheType = b.cacheType ∧ pyEq a.clearKey b.clearKey)) ∧
    (a.cacheType = b.cacheType → a.clearKey = b.clearKey →
      keyEq a b = true ∧ keyHash a = keyHash b) ∧
    (name ∈ sensitiveKeys → (v1 == Value.vnone) = false →
      (v2 == Value.vnone) = false → ¬pyEq v1 v2 →
      keyEq (create ct [] [(name, v1)]) (create ct [] [(name, v2)]) = false) ∧
    (name ∈ sensitiveKeys → (v1 == Value.vnone) = false →
      keyEq (create ct [] [(name, v1)]) (create ct [] [(name, v1)]) = true) := by
  intro a b ct name v1 v2
  have hdis : name ∈ sensitiveKeys →
      (name == "service_name") = false ∧ (name == "eviction_policy") = false ∧
      (name == "max_size") = false ∧ (name == "config") = false := by
    intro hmem
    simp only [sensitiveKeys, List.mem_cons, List.not_mem_nil,
      or_false] at hmem
    rcases hmem with rfl | rfl | rfl <;> exact ⟨rfl, rfl, rfl, rfl⟩
  refine ⟨?_, ?_, ?_, ?_⟩
  · simp [keyEq, pyEq, Bool.and_eq_true, beq_iff_eq]
  · intro h1 h2
    constructor
    · rw [keyEq, h1, h2]
      simp
    · rw [keyHash, keyHash, h2]
  · intro hmem hv1 hv2 hne
    obtain ⟨h1, h2, h3, h4⟩ := hdis hmem
    have e1 := create_single_clearKey ct name v1 h1 h2 h3 h4 hv1
    have e2 := create_single_clearKey ct name v2 h1 h2 h3 h4 hv2
    have hx : (pynorm (.vtuple [.vtuple [], .vtuple [.vtuple [.vstr name, v1]]])
        == pynorm (.vtuple [.vtuple [], .vtuple [.vtuple [.vstr name, v2]]]))
        = false := by
      rw [beq_eq_false_iff_ne]
      simp only [pynorm_vtuple, List.map_cons, List.map_nil]
      intro h
      apply hne
      simpa [pynorm] using h
    simp [keyEq, e1, e2, hx]
  · intro hmem hv1
    obtain ⟨h1, h2, h3, h4⟩ := hdis hmem
    have e1 := create_single_clearKey ct name v1 h1 h2 h3 h4 hv1
    simp [keyEq, e1]

theorem spec_C3_w :
    keyEq ⟨CacheType.client, .vstr "redactedA", .vstr "clear", "labelA", "cl"⟩
      ⟨CacheType.client, .vstr "redactedB", .vstr "clear", "labelB", "cl"⟩ =
      true ∧
    keyHash (⟨CacheType.client, .vstr "redactedA", .vstr "clear", "labelA",
      "cl"⟩ : CacheKeyData) =
      keyHash (⟨CacheType.client, .vstr "redactedB", .vstr "clear", "labelB",
        "cl"⟩ : CacheKeyData) ∧
    keyEq (create CacheType.client [] [("aws_session_token", .vstr "a")])
      (create CacheType.client [] [("aws_session_token", .vstr "b")]) =
      false ∧
    keyEq (create CacheType.client [] [("aws_session_token", .vstr "a")])
      (create CacheType.client [] [("aws_session_token", .vstr "a")]) =
      true := by
  have h := spec_C3
    ⟨CacheType.client, .vstr "redactedA", .vstr "clear", "labelA", "cl"⟩
    ⟨CacheType.client, .vstr "redactedB", .vstr "clear", "labelB", "cl"⟩
    CacheType.client "aws_session_token" (.vstr "a") (.vstr "b")
  have hv : ((Value.vstr "a" : Value) == Value.vnone) = false := by
    rw [beq_eq_false_iff_ne]
    simp
  have hv2 : ((Value.vstr "b" : Value) == Value.vnone) = false := by
    rw [beq_eq_false_iff_ne]
    simp
  have hne : ¬pyEq (.vstr "a") (.vstr "b") := by
    simp [pyEq, pynorm]
  have hmem : "aws_session_token" ∈ sensitiveKeys := by
    simp [sensitiveKeys]
  have h2 := h.2.1 rfl rfl
  exact ⟨h2.1, h2.2, h.2.2.1 hmem hv hv2 hne, h.2.2.2 hmem hv⟩

end Claims8

end BotoCache

namespace BotoCache

section C1Infra

variable {K V : Type} [DecidableEq K]

theorem attach_all_fn {α : Type} (l : List α) (f : α → Bool) :
    l.attach.all (fun x => f x.1) = l.all f := by
  rw [Bool.eq_iff_iff, List.all_eq_true, List.all_eq_true]
  constructor
  · intro h a ha
    exact h ⟨a, ha⟩ (List.mem_attach l ⟨a, ha⟩)
  · intro h x hx
    exact h x.1 x.2

theorem attach_map_entry {α β γ : Type} (l : List (α × β)) (g : β → γ) :
    l.attach.map (fun e => (e.1.1, g e.1.2)) = l.map (fun e => (e.1, g e.2)) := by
  rw [show (fun e : {x // x ∈ l} => (e.1.1, g e.1.2)) =
    (fun p : α × β => (p.1, g p.2)) ∘ Subtype.val from rfl,
    ← List.map_map, List.attach_map_subtype_val]

theorem pynorm_vlist (xs : List Value) :
    pynorm (.vlist xs) = .vlist (xs.map pynorm) := by
  simp only [pynorm]
  rw [attach_map_fn]

theorem pynorm_vdict (es : List (String × Value)) :
    pynorm (.vdict es) =
      .vdict (sortEntries (es.map (fun e => (e.1, pynorm e.2)))) := by
  simp only [pynorm]
  rw [attach_map_entry]

theorem pynorm_vconfig (es : List (String × Value)) :
    pynorm (.vconfig es) =
      .vconfig (sortEntries (es.map (fun e => (e.1, pynorm e.2)))) := by
  simp only [pynorm]
  rw [attach_map_entry]

theorem pynorm_vset (xs : List Value) :
    pynorm (.vset xs) = .vset (sortVals (xs.map pynorm)) := by
  simp only [pynorm]
  rw [attach_map_fn]

theorem freezeValue_vtuple (xs : List Value) :
    freezeValue (.vtuple xs) = .vtuple (xs.map freezeValue) := by
  simp only [freezeValue]
  rw [attach_map_fn]

theorem freezeValue_vlist (xs : List Value) :
    freezeValue (.vlist xs) = .vtuple (xs.map freezeValue) := by
  simp only [freezeValue]
  rw [attach_map_fn]

theorem freezeValue_vset (xs : List Value) :
    freezeValue (.vset xs) = .vtuple (sortVals (xs.map freezeValue)) := by
  simp only [freezeValue]
  rw [attach_map_fn]

theorem freezeValue_vdict (es : List (String × Value)) :
    freezeValue (.vdict es) =
      .vtuple ((sortEntries (es.map (fun e => (e.1, freezeValue e.2)))).map
        (fun e => Value.vtuple [.vstr e.1, e.2])) := by
  simp only [freezeValue]
  rw [attach_map_entry]

theorem hashableV_vtuple (xs : List Value) :
    hashableV (.vtuple xs) = xs.all hashableV := by
  simp only [hashableV]
  rw [attach_all_fn]

/-- `_freeze_value` canonicalizes a mapping: reordering its items does not
change the frozen form. -/
theorem freezeValue_dict_perm {es1 es2 : List (String × Value)}
    (h : es1.Perm es2) : freezeValue (.vdict es1) = freezeValue (.vdict es2) := by
  rw [freezeValue_vdict, freezeValue_vdict,
    sortEntries_perm_eq (h.map (fun e => (e.1, freezeValue e.2)))]

/-- `_freeze_value` canonicalizes a set: reordering its elements does not
change the frozen form. -/
theorem freezeValue_set_perm {xs1 xs2 : List Value} (h : xs1.Perm xs2) :
    freezeValue (.vset xs1) = freezeValue (.vset xs2) := by
  rw [freezeValue_vset, freezeValue_vset, sortVals_perm_eq (h.map freezeValue)]

/-- `_config_cache_key` is independent of the internal order of the
`Config`'s `_user_provided_options`. -/
theorem configCacheKey_perm {es1 es2 : List (String × Value)}
    (h : es1.Perm es2) :
    configCacheKey (.vconfig es1) = configCacheKey (.vconfig es2) := by
  simp only [configCacheKey]
  exact freezeValue_dict_perm h

theorem eraseKV_perm {l1 l2 : List (K × V)} (h : l1.Perm l2) :
    (l1.map Prod.fst).Nodup → ∀ k, (eraseKV l1 k).Perm (eraseKV l2 k) := by
  induction h with
  | nil => intro _ k; exact List.Perm.refl _
  | cons x h ih =>
    intro hnd k
    rw [List.map_cons, List.nodup_cons] at hnd
    by_cases hx : (x.1 == k) = true
    · simp only [eraseKV, List.eraseP_cons, hx, if_true]
      exact h
    · simp only [eraseKV, List.eraseP_cons, hx, Bool.false_eq_true, if_false]
      exact (ih hnd.2 k).cons x
  | swap x y l =>
    intro hnd k
    rw [List.map_cons, List.map_cons, List.nodup_cons, List.nodup_cons] at hnd
    by_cases hx : (x.1 == k) = true
    · by_cases hy : (y.1 == k) = true
      · have hx2 : x.1 = k := by simpa using hx
        have hy2 : y.1 = k := by simpa using hy
        exact absurd (by rw [hy2, ← hx2]; exact List.mem_cons_self _ _) hnd.1
      · simp only [eraseKV, List.eraseP_cons, hx, hy, Bool.false_eq_true,
          if_false, if_true]
        exact List.Perm.refl _
    · by_cases hy : (y.1 == k) = true
      · simp only [eraseKV, List.eraseP_cons, hx, hy, Bool.false_eq_true,
          if_false, if_true]
        exact List.Perm.refl _
      · simp only [eraseKV, List.eraseP_cons, hx, hy, Bool.false_eq_true,
          if_false]
        exact List.Perm.swap x y _
  | trans h1 h2 ih1 ih2 =>
    intro hnd k
    exact (ih1 hnd k).trans (ih2 (((h1.map Prod.fst).nodup_iff).mp hnd) k)

theorem lookupKV_eraseKV_self {l : List (K × V)}
    (hnd : (l.map Prod.fst).Nodup) (k : K) :
    lookupKV (eraseKV l k) k = none := by
  rw [lookupKV_eq_none_iff, eraseKV_map_fst]
  by_cases hm : k ∈ l.map Prod.fst
  · have hp := perm_cons_eraseP_beq hm
    have hnd2 := (hp.nodup_iff).mp hnd
    exact (List.nodup_cons.mp hnd2).1
  · intro hc
    exact hm ((List.eraseP_sublist _).subset hc)

end C1Infra

end BotoCache

namespace BotoCache

section C1Create

theorem nodup_eraseKV {K V : Type} [DecidableEq K] {l : List (K × V)}
    (hnd : (l.map Prod.fst).Nodup) (k : K) :
    ((eraseKV l k).map Prod.fst).Nodup := by
  rw [eraseKV_map_fst]
  exact hnd.sublist (List.eraseP_sublist _)

/-- When `service_name` is passed as a keyword, `_create` folds it into
the positional arguments: building the key is the same as building it
from the signature with the value prepended positionally and the keyword
removed. -/
theorem create_fold {kw : List (String × Value)} {sv : Value}
    (ct : CacheType) (args0 : List Value)
    (hs : getKw kw "service_name" = some sv)
    (hnd : (kw.map Prod.fst).Nodup) :
    create ct args0 kw = create ct (sv :: args0) (eraseKw kw "service_name") := by
  have hs2 : getKw (eraseKw kw "service_name") "service_name" = none :=
    lookupKV_eraseKV_self hnd "service_name"
  simp only [create, hs, hs2]

end C1Create

end BotoCache

namespace BotoCache

section C1Create2

/-- `_create` on a signature whose keywords do not include `service_name`
is invariant under reordering of the keyword arguments (unique names):
every kwargs-derived part of the key is passed through `sorted`. -/
theorem create_noserv_perm (ct : CacheType) (args0 : List Value)
    {q1 q2 : List (String × Value)} (hp : q1.Perm q2)
    (hnd : (q1.map Prod.fst).Nodup)
    (hs1 : getKw q1 "service_name" = none) :
    create ct args0 q1 = create ct args0 q2 := by
  have hnd2 : (q2.map Prod.fst).Nodup := ((hp.map Prod.fst).nodup_iff).mp hnd
  have hs2 : getKw q2 "service_name" = none := by
    have hx : getKw q1 "service_name" = getKw q2 "service_name" :=
      lookupKV_perm hp hnd "service_name"
    rw [← hx]
    exact hs1
  have hpE : (eraseKw (eraseKw q1 "eviction_policy") "max_size").Perm
      (eraseKw (eraseKw q2 "eviction_policy") "max_size") :=
    eraseKV_perm (eraseKV_perm hp hnd "eviction_policy")
      (nodup_eraseKV hnd "eviction_policy") "max_size"
  have hndE : ((eraseKw (eraseKw q1 "eviction_policy") "max_size").map
      Prod.fst).Nodup :=
    nodup_eraseKV (nodup_eraseKV hnd "eviction_policy") "max_size"
  have hsorted : sortEntries (eraseKw (eraseKw q2 "eviction_policy") "max_size") =
      sortEntries (eraseKw (eraseKw q1 "eviction_policy") "max_size") :=
    (sortEntries_perm_eq hpE).symm
  have hcfg : getKw (eraseKw (eraseKw q2 "eviction_policy") "max_size") "config" =
      getKw (eraseKw (eraseKw q1 "eviction_policy") "max_size") "config" :=
    (lookupKV_perm hpE hndE "config").symm
  simp only [create, hs1, hs2, hsorted, hcfg]
  rcases hc : getKw (eraseKw (eraseKw q1 "eviction_policy") "max_size") "config"
    with _ | cv
  · simp only [hc]
    have h1 : sortEntries (((eraseKw (eraseKw q2 "eviction_policy")
        "max_size").filter (fun e => !(e.2 == Value.vnone))).map
          (fun e => if sensitiveKeys.contains e.1
            then (e.1, Value.vstr "***") else e)) =
        sortEntries (((eraseKw (eraseKw q1 "eviction_policy")
        "max_size").filter (fun e => !(e.2 == Value.vnone))).map
          (fun e => if sensitiveKeys.contains e.1
            then (e.1, Value.vstr "***") else e)) :=
      (sortEntries_perm_eq ((hpE.filter _).map _)).symm
    have h2 : sortEntries ((eraseKw (eraseKw q2 "eviction_policy")
        "max_size").filter (fun e => !(e.2 == Value.vnone))) =
        sortEntries ((eraseKw (eraseKw q1 "eviction_policy")
        "max_size").filter (fun e => !(e.2 == Value.vnone))) :=
      (sortEntries_perm_eq (hpE.filter _)).symm
    rw [h1, h2]
  · simp only [hc]
    by_cases hcv : cv = Value.vnone
    · rw [if_pos hcv, if_pos hcv]
      have h1 : sortEntries (((eraseKw (eraseKw q2 "eviction_policy")
          "max_size").filter (fun e => !(e.2 == Value.vnone))).map
            (fun e => if sensitiveKeys.contains e.1
              then (e.1, Value.vstr "***") else e)) =
          sortEntries (((eraseKw (eraseKw q1 "eviction_policy")
          "max_size").filter (fun e => !(e.2 == Value.vnone))).map
            (fun e => if sensitiveKeys.contains e.1
              then (e.1, Value.vstr "***") else e)) :=
        (sortEntries_perm_eq ((hpE.filter _).map _)).symm
      have h2 : sortEntries ((eraseKw (eraseKw q2 "eviction_policy")
          "max_size").filter (fun e => !(e.2 == Value.vnone))) =
          sortEntries ((eraseKw (eraseKw q1 "eviction_policy")
          "max_size").filter (fun e => !(e.2 == Value.vnone))) :=
        (sortEntries_perm_eq (hpE.filter _)).symm
      rw [h1, h2]
    · rw [if_neg hcv, if_neg hcv]
      have hC : (setKw (eraseKw (eraseKw q1 "eviction_policy") "max_size")
          "config" (configCacheKey cv)).Perm
          (setKw (eraseKw (eraseKw q2 "eviction_policy") "max_size")
          "config" (configCacheKey cv)) := hpE.map _
      have h1 : sortEntries (((setKw (eraseKw (eraseKw q2 "eviction_policy")
          "max_size") "config" (configCacheKey cv)).filter
            (fun e => !(e.2 == Value.vnone))).map
            (fun e => if sensitiveKeys.contains e.1
              then (e.1, Value.vstr "***") else e)) =
          sortEntries (((setKw (eraseKw (eraseKw q1 "eviction_policy")
          "max_size") "config" (configCacheKey cv)).filter
            (fun e => !(e.2 == Value.vnone))).map
            (fun e => if sensitiveKeys.contains e.1
              then (e.1, Value.vstr "***") else e)) :=
        (sortEntries_perm_eq ((hC.filter _).map _)).symm
      have h2 : sortEntries ((setKw (eraseKw (eraseKw q2 "eviction_policy")
          "max_size") "config" (configCacheKey cv)).filter
            (fun e => !(e.2 == Value.vnone))) =
          sortEntries ((setKw (eraseKw (eraseKw q1 "eviction_policy")
          "max_size") "config" (configCacheKey cv)).filter
            (fun e => !(e.2 == Value.vnone))) :=
        (sortEntries_perm_eq (hC.filter _)).symm
      rw [h1, h2]

end C1Create2

end BotoCache

namespace BotoCache

section Claims9

/-- `_create` is invariant under reordering of the keyword arguments
(with their distinct names): the derived key data is identical. -/
theorem create_kwargs_perm (ct : CacheType) (args0 : List Value)
    {kw1 kw2 : List (String × Value)} (h : kw1.Perm kw2)
    (hnd : (kw1.map Prod.fst).Nodup) :
    create ct args0 kw1 = create ct args0 kw2 := by
  have hnd2 : (kw2.map Prod.fst).Nodup := ((h.map Prod.fst).nodup_iff).mp hnd
  rcases hs : getKw kw1 "service_name" with _ | sv
  · exact create_noserv_perm ct args0 h hnd hs
  · have hs2 : getKw kw2 "service_name" = some sv := by
      have hx : getKw kw1 "service_name" = getKw kw2 "service_name" :=
        lookupKV_perm h hnd "service_name"
      rw [← hx]
      exact hs
    rw [create_fold ct args0 hs hnd, create_fold ct args0 hs2 hnd2]
    exact create_noserv_perm ct (sv :: args0)
      (eraseKV_perm h hnd "service_name")
      (nodup_eraseKV hnd "service_name")
      (lookupKV_eraseKV_self hnd "service_name")

/-- C1 (amended: order-insensitivity holds for named-argument order and,
through `_config_cache_key`, for the internal order of `Config` options;
`_freeze_value` canonicalizes mappings to sorted tuples of items,
sequences to order-preserving tuples and sets to sorted tuples — but
`_create` applies it only to `Config` values, so general nested
mapping/set values are stored in the key with their internal order
retained and make the key unhashable): reordering keyword arguments
yields identical keys, hence equal keys with equal hashes, and the
canonicalizer itself is order-independent on mappings and sets and
order-preserving on sequences. -/
theorem spec_C1 : ∀ (ct : CacheType) (args0 : List Value)
    (kw1 kw2 es1 es2 : List (String × Value)) (xs1 : List Value),
    (kw1.Perm kw2 → (kw1.map Prod.fst).Nodup →
      create ct args0 kw1 = create ct args0 kw2 ∧
      keyEq (create ct args0 kw1) (create ct args0 kw2) = true ∧
      keyHash (create ct args0 kw1) = keyHash (create ct args0 kw2)) ∧
    (es1.Perm es2 → freezeValue (.vdict es1) = freezeValue (.vdict es2)) ∧
    (xs1.Perm xs1.reverse → freezeValue (.vset xs1) =
      freezeValue (.vset xs1.reverse)) ∧
    (freezeValue (.vtuple xs1) = .vtuple (xs1.map freezeValue) ∧
      freezeValue (.vlist xs1) = .vtuple (xs1.map freezeValue)) ∧
    (es1.Perm es2 →
      configCacheKey (.vconfig es1) = configCacheKey (.vconfig es2)) := by
  intro ct args0 kw1 kw2 es1 es2 xs1
  refine ⟨?_, freezeValue_dict_perm, freezeValue_set_perm,
    ⟨freezeValue_vtuple xs1, freezeValue_vlist xs1⟩, configCacheKey_perm⟩
  intro hp hnd
  have he := create_kwargs_perm ct args0 hp hnd
  refine ⟨he, ?_, by rw [he]⟩
  rw [he, keyEq]
  simp

theorem spec_C1_w :
    ([("region_name", Value.vstr "r"), ("api_version", Value.vint 2)].Perm
      [("api_version", Value.vint 2), ("region_name", Value.vstr "r")]) ∧
    create CacheType.client [] [("region_name", Value.vstr "r"),
        ("api_version", Value.vint 2)] =
      create CacheType.client [] [("api_version", Value.vint 2),
        ("region_name", Value.vstr "r")] ∧
    freezeValue (.vdict [("a", Value.vint 1), ("b", Value.vint 2)]) =
      freezeValue (.vdict [("b", Value.vint 2), ("a", Value.vint 1)]) := by
  have hperm : ([("region_name", Value.vstr "r"),
      ("api_version", Value.vint 2)].Perm
      [("api_version", Value.vint 2), ("region_name", Value.vstr "r")]) :=
    List.Perm.swap _ _ _
  have hperm2 : ([(("a" : String), Value.vint 1), ("b", Value.vint 2)].Perm
      [("b", Value.vint 2), ("a", Value.vint 1)]) := List.Perm.swap _ _ _
  have h := spec_C1 CacheType.client []
    [("region_name", Value.vstr "r"), ("api_version", Value.vint 2)]
    [("api_version", Value.vint 2), ("region_name", Value.vstr "r")]
    [("a", Value.vint 1), ("b", Value.vint 2)]
    [("b", Value.vint 2), ("a", Value.vint 1)] []
  exact ⟨hperm, (h.1 hperm (by decide)).1, h.2.1 hperm2⟩

end Claims9

end BotoCache

namespace BotoCache

section Claims10

/-- The unamended C1 is false: `_create` does NOT canonicalize a general
nested mapping value.  For the two logically equal signatures
`(**{x: {a: 1, b: 2}})` and `(**{x: {b: 2, a: 1}})` the clear canonical
forms differ structurally (the mapping is embedded with its internal
order retained, not as a sorted tuple), and the resulting key has no hash
at all — `hash` raises `TypeError` on the mapping inside the key tuple
(modelled by `keyHash = none`) — even though Python `==` still equates
the two keys. -/
theorem spec_C1_cex :
    keyEq (create CacheType.client []
        [("x", .vdict [("a", .vint 1), ("b", .vint 2)])])
      (create CacheType.client []
        [("x", .vdict [("b", .vint 2), ("a", .vint 1)])]) = true ∧
    (create CacheType.client []
        [("x", .vdict [("a", .vint 1), ("b", .vint 2)])]).clearKey ≠
      (create CacheType.client []
        [("x", .vdict [("b", .vint 2), ("a", .vint 1)])]).clearKey ∧
    keyHash (create CacheType.client []
      [("x", .vdict [("a", .vint 1), ("b", .vint 2)])]) = none := by
  have hb1 : ((Value.vdict [("a", Value.vint 1), ("b", Value.vint 2)]) ==
      Value.vnone) = false := by
    rw [beq_eq_false_iff_ne]
    simp
  have hb2 : ((Value.vdict [("b", Value.vint 2), ("a", Value.vint 1)]) ==
      Value.vnone) = false := by
    rw [beq_eq_false_iff_ne]
    simp
  have e1 := create_single_clearKey CacheType.client "x"
    (.vdict [("a", .vint 1), ("b", .vint 2)])
    (by decide) (by decide) (by decide) (by decide) hb1
  have e2 := create_single_clearKey CacheType.client "x"
    (.vdict [("b", .vint 2), ("a", .vint 1)])
    (by decide) (by decide) (by decide) (by decide) hb2
  have hct1 : (create CacheType.client []
      [("x", .vdict [("a", .vint 1), ("b", .vint 2)])]).cacheType =
      CacheType.client := rfl
  have hct2 : (create CacheType.client []
      [("x", .vdict [("b", .vint 2), ("a", .vint 1)])]).cacheType =
      CacheType.client := rfl
  refine ⟨?_, ?_, ?_⟩
  · have hpy : pynorm (Value.vdict [("a", Value.vint 1), ("b", Value.vint 2)]) =
        pynorm (Value.vdict [("b", Value.vint 2), ("a", Value.vint 1)]) := by
      rw [pynorm_vdict, pynorm_vdict, sortEntries_perm_eq
        ((List.Perm.swap ("b", Value.vint 2) ("a", Value.vint 1) []).map _)]
    rw [keyEq, hct1, hct2, e1, e2]
    simp only [pynorm_vtuple, List.map_cons, List.map_nil, hpy]
    simp
  · rw [e1, e2]
    intro hcontra
    simp at hcontra
  · have hfalse : hashableV (Value.vtuple [Value.vtuple [], Value.vtuple
        [Value.vtuple [Value.vstr "x",
          Value.vdict [("a", Value.vint 1), ("b", Value.vint 2)]]]]) = false := by
      simp [hashableV_vtuple, hashableV, attach_all_fn, List.all_cons,
        List.all_nil]
    rw [keyHash, e1, pyHash, hfalse]
    simp

end Claims10

end BotoCache

namespace BotoCache

section C2Infra

/-- Whether the first character list is a prefix of the second (spec-side
notion used to express the claim's "contains", which names no function of
the repository). -/
def prefixOf : List Char → List Char → Bool
  | [], _ => true
  | _ :: _, [] => false
  | a :: as, b :: bs => a == b && prefixOf as bs

/-- Whether the first character list occurs contiguously in the second
(spec-side notion for the claim's "contains"). -/
def occursIn (n : List Char) : List Char → Bool
  | [] => n.isEmpty
  | c :: rest => prefixOf n (c :: rest) || occursIn n rest

/-- Whether `needle` occurs in `hay` as a substring (spec-side notion for
the claim's "contains"). -/
def strOccurs (needle hay : String) : Bool := occursIn needle.data hay.data

theorem prefixOf_append_self (n l : List Char) : prefixOf n (n ++ l) = true := by
  induction n with
  | nil => rfl
  | cons a as ih => simp [prefixOf, ih]

theorem occursIn_self_append (n l : List Char) : occursIn n (n ++ l) = true := by
  cases n with
  | nil =>
    induction l with
    | nil => rfl
    | cons c rest ih => simp [occursIn, prefixOf]
  | cons a as =>
    simp [occursIn, prefixOf, prefixOf_append_self]

theorem occursIn_skip (c : Char) {n l : List Char} (h : occursIn n l = true) :
    occursIn n (c :: l) = true := by
  simp [occursIn, h]

theorem occursIn_append_left (l1 : List Char) {n l : List Char}
    (h : occursIn n l = true) : occursIn n (l1 ++ l) = true := by
  induction l1 with
  | nil => exact h
  | cons c rest ih => exact occursIn_skip c ih

/-- The redacted key `_create` builds for `(**{name: v})` with a sensitive
`name` and non-`None` `v`: the value slot holds the fixed marker `"***"`,
not `v`. -/
theorem create_single_key (ct : CacheType) (name : String) (v : Value)
    (h1 : (name == "service_name") = false)
    (h2 : (name == "eviction_policy") = false)
    (h3 : (name == "max_size") = false)
    (h4 : (name == "config") = false)
    (h5 : (v == Value.vnone) = false)
    (hsens : name ∈ sensitiveKeys) :
    (create ct [] [(name, v)]).key =
      .vtuple [.vtuple [], .vtuple [.vtuple [.vstr name, .vstr "***"]]] := by
  simp [create, getKw, eraseKw, setKw, sortEntries, List.insertionSort,
    popTrailingNones, entryTuple, h1, h2, h3, h4, h5, hsens, List.find?,
    List.eraseP, List.filter]

/-- The redacted label for `(**{name: v})` with a sensitive `name`:
`name=***`, independent of `v`. -/
theorem create_single_label (ct : CacheType) (name : String) (v : Value)
    (h1 : (name == "service_name") = false)
    (h2 : (name == "eviction_policy") = false)
    (h3 : (name == "max_size") = false)
    (hsens : name ∈ sensitiveKeys) :
    (create ct [] [(name, v)]).label = name ++ "=***" := by
  simp [create, getKw, eraseKw, setKw, sortEntries, List.insertionSort,
    popTrailingNones, entryTuple, joinStrs, h1, h2, h3, hsens, List.find?,
    List.eraseP, List.filter]

/-- The clear label for `(**{name: v})`: it renders `v` itself. -/
theorem create_single_clearLabel (ct : CacheType) (name : String) (v : Value)
    (h1 : (name == "service_name") = false)
    (h2 : (name == "eviction_policy") = false)
    (h3 : (name == "max_size") = false) :
    (create ct [] [(name, v)]).clearLabel =
      name ++ "=" ++ formatLabelValue v := by
  simp [create, getKw, eraseKw, setKw, sortEntries, List.insertionSort,
    popTrailingNones, entryTuple, joinStrs, h1, h2, h3, List.find?,
    List.eraseP, List.filter]

end C2Infra

end BotoCache

namespace BotoCache

section Claims11

/-- C2 (amended: "does not contain" must be read as noninterference —
the redacted label and redacted key are fixed functions of the parameter
name alone, with the value slot replaced by the marker `***`, so they are
identical for any two sensitive values; literal substring non-containment
is false for values such as `*` that occur inside the marker itself):
for a value passed under a sensitive parameter name, by keyword or at a
sensitive position, the redacted label and redacted key are independent
of the value (keyword values non-`None`, positional values non-`Config`),
the value slot holds `***`, while the clear key embeds the value itself
and the clear label renders it. -/
theorem spec_C2 : ∀ (ct : CacheType) (name : String) (v1 v2 : Value)
    (s : String),
    (name ∈ sensitiveKeys → (v1 == Value.vnone) = false →
      (v2 == Value.vnone) = false →
      (create ct [] [(name, v1)]).key = (create ct [] [(name, v2)]).key ∧
      (create ct [] [(name, v1)]).label = (create ct [] [(name, v2)]).label ∧
      (create ct [] [(name, v1)]).key =
        .vtuple [.vtuple [], .vtuple [.vtuple [.vstr name, .vstr "***"]]] ∧
      (create ct [] [(name, v1)]).label = name ++ "=***" ∧
      (create ct [] [(name, v1)]).clearKey =
        .vtuple [.vtuple [], .vtuple [.vtuple [.vstr name, v1]]] ∧
      (create ct [] [(name, v1)]).clearLabel =
        name ++ "=" ++ formatLabelValue v1) ∧
    (name ∈ sensitiveKeys →
      strOccurs s ((create ct [] [(name, .vstr s)]).clearLabel) = true) ∧
    (isConfig v1 = false → isConfig v2 = false →
      (create ct [.vstr "s0", .vstr "s1", .vstr "s2", .vstr "s3", .vstr "s4",
        .vstr "s5", v1] []).key =
      (create ct [.vstr "s0", .vstr "s1", .vstr "s2", .vstr "s3", .vstr "s4",
        .vstr "s5", v2] []).key) ∧
    ((create ct [.vstr "s0", .vstr "s1", .vstr "s2", .vstr "s3", .vstr "s4",
        .vstr "s5", v1] []).label =
      (create ct [.vstr "s0", .vstr "s1", .vstr "s2", .vstr "s3", .vstr "s4",
        .vstr "s5", v2] []).label) := by
  intro ct name v1 v2 s
  have hdis : name ∈ sensitiveKeys →
      (name == "service_name") = false ∧ (name == "eviction_policy") = false ∧
      (name == "max_size") = false ∧ (name == "config") = false := by
    intro hmem
    simp only [sensitiveKeys, List.mem_cons, List.not_mem_nil,
      or_false] at hmem
    rcases hmem with rfl | rfl | rfl <;> exact ⟨rfl, rfl, rfl, rfl⟩
  have hpos : sensitiveArgPositions = [6, 7, 8] := by decide
  have hb : ((Value.vstr "***") == Value.vnone) = false := by
    rw [beq_eq_false_iff_ne]
    simp
  refine ⟨?_, ?_, ?_, ?_⟩
  · intro hmem hv1 hv2
    obtain ⟨h1, h2, h3, h4⟩ := hdis hmem
    have k1 := create_single_key ct name v1 h1 h2 h3 h4 hv1 hmem
    have k2 := create_single_key ct name v2 h1 h2 h3 h4 hv2 hmem
    have l1 := create_single_label ct name v1 h1 h2 h3 hmem
    have l2 := create_single_label ct name v2 h1 h2 h3 hmem
    exact ⟨k1.trans k2.symm, l1.trans l2.symm, k1, l1,
      create_single_clearKey ct name v1 h1 h2 h3 h4 hv1,
      create_single_clearLabel ct name v1 h1 h2 h3⟩
  · intro hmem
    obtain ⟨h1, h2, h3, h4⟩ := hdis hmem
    rw [create_single_clearLabel ct name (.vstr s) h1 h2 h3]
    have hf : formatLabelValue (.vstr s) = "\x27" ++ s ++ "\x27" := by
      simp only [formatLabelValue]
      simp only [pyRepr]
    rw [hf, strOccurs]
    simp only [String.data_append, List.append_assoc]
    exact occursIn_append_left _ (occursIn_append_left _
      (occursIn_append_left _ (occursIn_self_append _ _)))
  · intro hv1 hv2
    have hc0 : ∀ str, isConfig (Value.vstr str) = false := fun _ => rfl
    simp [create, getKw, eraseKw, setKw, sortEntries, List.insertionSort,
      popTrailingNones, entryTuple, hpos, hv1, hv2, hb, hc0,
      List.find?, List.eraseP, List.filter, List.enum, List.enumFrom]
  · simp [create, getKw, eraseKw, setKw, sortEntries, List.insertionSort,
      popTrailingNones, entryTuple, hpos, joinStrs,
      List.find?, List.eraseP, List.filter, List.enum, List.enumFrom]

end Claims11

end BotoCache

namespace BotoCache

section Claims12

/-- The unamended C2 is false as literal non-containment: for the
sensitive value `*`, the redacted label of the key built from
`(**{aws_session_token: "*"})` is `aws_session_token=***`, which contains
the sensitive value `*` as a substring. -/
theorem spec_C2_cex :
    (create CacheType.client [] [("aws_session_token", .vstr "*")]).label =
      "aws_session_token" ++ "=***" ∧
    strOccurs "*" ("aws_session_token" ++ "=***") = true := by
  constructor
  · exact create_single_label CacheType.client "aws_session_token" (.vstr "*")
      (by decide) (by decide) (by decide) (by decide)
  · decide

theorem spec_C2_w :
    ("aws_secret_access_key" ∈ sensitiveKeys) ∧
    ((Value.vstr "KEYA" == Value.vnone) = false) ∧
    (create CacheType.client [] [("aws_secret_access_key", .vstr "KEYA")]).key =
      (create CacheType.client []
        [("aws_secret_access_key", .vstr "KEYB")]).key ∧
    (create CacheType.client []
        [("aws_secret_access_key", .vstr "KEYA")]).label =
      "aws_secret_access_key" ++ "=***" ∧
    (create CacheType.client []
        [("aws_secret_access_key", .vstr "KEYA")]).clearKey =
      .vtuple [.vtuple [], .vtuple [.vtuple [.vstr "aws_secret_access_key",
        .vstr "KEYA"]]] ∧
    strOccurs "tok" ((create CacheType.client []
      [("aws_secret_access_key", .vstr "tok")]).clearLabel) = true := by
  have hmem : "aws_secret_access_key" ∈ sensitiveKeys := by decide
  have hv1 : ((Value.vstr "KEYA" : Value) == Value.vnone) = false := by
    rw [beq_eq_false_iff_ne]
    simp
  have hv2 : ((Value.vstr "KEYB" : Value) == Value.vnone) = false := by
    rw [beq_eq_false_iff_ne]
    simp
  have h := spec_C2 CacheType.client "aws_secret_access_key"
    (.vstr "KEYA") (.vstr "KEYB") "tok"
  have h1 := h.1 hmem hv1 hv2
  exact ⟨hmem, hv1, h1.1, h1.2.2.2.1, h1.2.2.2.2.1, h.2.1 hmem⟩

end Claims12

end BotoCache
